import Mathlib

/-!
Verification development for the iplist IPv4 label database.

The definitions below are a shallow embedding of the Go sources
(open.go, generate.go, provider.go).  Machine `uint32` values are
modelled as `Nat` with explicit `% 2^32` wherever the Go code can
overflow; parallel `[]uint32` arrays are modelled as `List Nat`
accessed with `List.getD _ _ 0` (the Go code indexes without bounds
checks inside windows that are proved in range).
-/

namespace IplistModel

/-- `labelNone = ^uint32(0)`: the reserved sentinel label. -/
def labelNone : Nat := 2 ^ 32 - 1

/-- An interval table: three parallel u32 arrays (open.go `v4Table`).
The `dense` flag and the 16-bit bucket arrays are derived at open time;
here they are modelled by the functions `detectDense`, `bucketLo16`,
`bucketHi16` below, which compute exactly the values the Go code caches. -/
structure V4Table where
  starts : List Nat
  ends : List Nat
  labels : List Nat
deriving Repr, DecidableEq

/-- `v4Table.detectDense` from open.go, translated loop-for-loop.
The inner Go loop over `i < n-1` is the bounded check `denseChain`. -/
def denseChain (starts ends : List Nat) : Nat → Bool
  | 0 => true
  | i + 1 =>
    -- checks indices 0..i of the Go loop
    denseChain starts ends i &&
      !(ends.getD i 0 = labelNone) &&
      (ends.getD i 0 + 1 = starts.getD (i + 1) 0)

def V4Table.detectDense (t : V4Table) : Bool :=
  if t.starts.length = 0 then false
  else if t.starts.length ≠ t.ends.length || t.starts.length ≠ t.labels.length then false
  else if t.starts.getD 0 0 ≠ 0 then false
  else
    denseChain t.starts t.ends (t.starts.length - 1) &&
      (t.ends.getD (t.ends.length - 1) 0 = labelNone)

/-- The moving-cursor inner loop of `buildBuckets16`:
`for i < n && vals[i] < key { i++ }`.  The loop runs at most
`vals.length - i` times; that bound is passed as structural fuel so the
definition evaluates by kernel reduction. -/
def advanceGo (vals : List Nat) (key : Nat) : Nat → Nat → Nat
  | 0, i => i
  | fuel + 1, i =>
    if i < vals.length then
      if vals.getD i 0 < key then advanceGo vals key fuel (i + 1) else i
    else i

def advance (vals : List Nat) (key : Nat) (i : Nat) : Nat :=
  advanceGo vals key (vals.length - i) i

/-- The loop key `key := uint32(p) << 16` of `buildBuckets16`: a u32
shift, so at `p = 65536` (the last outer iteration) it wraps to 0. -/
def bucketKey (p : Nat) : Nat := (p * 65536) % 2 ^ 32

/-- Cursor value after processing prefix `p` in `buildBuckets16`
(the outer `for p := 0; p <= size; p++` loop with key `uint32(p) << 16`).
`bucketCursor vals p` is the Go array `startGE[p]` when `vals` is the
starts array, and `endGE[p]` when `vals` is the ends array.  Because
the key wraps to 0 at `p = 65536`, the final cursor `startGE[65536]`
never advances past `startGE[65535]`. -/
def bucketCursor (vals : List Nat) : Nat → Nat
  | 0 => advance vals (bucketKey 0) 0
  | p + 1 => advance vals (bucketKey (p + 1)) (bucketCursor vals p)

/-- `bucketLo16[p] = endGE[p]` (open.go `buildBuckets16`). -/
def V4Table.bucketLo16 (t : V4Table) (p : Nat) : Nat :=
  bucketCursor t.ends p

/-- `bucketHi16[p] = startGE[p+1]` (open.go `buildBuckets16`). -/
def V4Table.bucketHi16 (t : V4Table) (p : Nat) : Nat :=
  bucketCursor t.starts (p + 1)

/-- Common tail of both search strategies in `v4Table.lookup`
(generate.go): dense tables skip the `ends` check and treat
`labelNone` as a miss; sparse tables check `ip > ends[idx]`. -/
def V4Table.tailCheck (t : V4Table) (ip idx : Nat) : Option Nat :=
  let label := t.labels.getD idx 0
  if t.detectDense then
    if label = labelNone then none else some label
  else if t.ends.getD idx 0 < ip then none
  else some label

/-- The descending linear scan of `v4Table.lookup`:
`for idx := hi - 1; idx >= lo; idx--` looking for `starts[idx] <= ip`.
In Go `idx` is an `int` that may reach `-1`; in `Nat` the `idx = 0`
case ends the loop explicitly. -/
def scanDown (starts : List Nat) (ip lo : Nat) : Nat → Option Nat
  | 0 => if 0 < lo then none else if ip < starts.getD 0 0 then none else some 0
  | k + 1 =>
    if k + 1 < lo then none
    else if ip < starts.getD (k + 1) 0 then scanDown starts ip lo k
    else some (k + 1)

/-- The branchless binary search of `v4Table.lookup`:
`for i < j { h := (i+j)>>1; if starts[h] > ip { j = h } else { i = h+1 } }`.
Each iteration shrinks `j - i`, so `j - i` serves as structural fuel. -/
def bsearchGo (starts : List Nat) (ip : Nat) : Nat → Nat → Nat → Nat
  | 0, i, _ => i
  | fuel + 1, i, j =>
    if i < j then
      if ip < starts.getD ((i + j) / 2) 0 then bsearchGo starts ip fuel i ((i + j) / 2)
      else bsearchGo starts ip fuel ((i + j) / 2 + 1) j
    else i

def bsearch (starts : List Nat) (ip : Nat) (i j : Nat) : Nat :=
  bsearchGo starts ip (j - i) i j

/-- The windowed search of `v4Table.lookup` (generate.go), after the
bucket narrowing produced `[lo, hi)`: `lo >= hi` is a miss, small
windows use the descending linear scan, larger ones the binary search.
`idx := i - 1; idx < lo` is expressed as `i ≤ lo` (the search maintains
`lo ≤ i`). -/
def V4Table.lookupWin (t : V4Table) (ip lo hi : Nat) : Option Nat :=
  if hi ≤ lo then none
  else if hi - lo ≤ 32 then
    match scanDown t.starts ip lo (hi - 1) with
    | none => none
    | some idx => t.tailCheck ip idx
  else
    if bsearch t.starts ip lo hi ≤ lo then none
    else t.tailCheck ip (bsearch t.starts ip lo hi - 1)

/-- `v4Table.lookup` from generate.go.  The bucket arrays are non-nil
exactly when the table is non-empty, which the first guard covers; the
Go clamp `lo < 0 → 0` is a no-op over `Nat`, and `hi` is clamped to the
table length. -/
def V4Table.lookup (t : V4Table) (ip : Nat) : Option Nat :=
  if t.starts.length = 0 then none
  else t.lookupWin ip (t.bucketLo16 (ip / 65536))
    (min (t.bucketHi16 (ip / 65536)) t.starts.length)

/-- A lookup record (`entry` in the Go sources): inclusive `[Start, End]`
with a label-table index. -/
structure entry where
  Start : Nat
  End : Nat
  Label : Nat
deriving Repr, DecidableEq

/-- An inclusive IPv4 range (`ipRange` in open.go).  The Go field `end`
is a reserved word in Lean and is rendered `end_`. -/
structure ipRange where
  start : Nat
  end_ : Nat
deriving Repr, DecidableEq

/-- Default entry used for out-of-range `List.getD` indexing in
statements; all indices in proofs are shown in range. -/
def entry0 : entry := ⟨0, 0, 0⟩

/-- `validateNoOverlapDifferentLabel` (open.go): walks consecutive pairs;
`true` models a nil error, `false` models the descriptive overlap error. -/
def validateNoOverlapDifferentLabel : List entry → Bool
  | prev :: cur :: rest =>
    (if cur.Start ≤ prev.End then prev.Label == cur.Label else true) &&
      validateNoOverlapDifferentLabel (cur :: rest)
  | _ => true

/-- Ordering used by `sort.Slice(..., func(i,j) { return out[i].start < out[j].start })`
in `readCIDRFileAsRanges`; the model sorts into some permutation ordered
by start, which is all the Go unstable sort guarantees. -/
def rangeLE (a b : ipRange) : Prop := a.start ≤ b.start

instance : DecidableRel rangeLE := fun a b => inferInstanceAs (Decidable (a.start ≤ b.start))

instance : IsTotal ipRange rangeLE := ⟨fun a b => Nat.le_total a.start b.start⟩

instance : IsTrans ipRange rangeLE := ⟨fun _ _ _ => Nat.le_trans⟩

/-- Ordering used by the four `sort.Slice` calls in `Build`. -/
def entryLE (a b : entry) : Prop := a.Start ≤ b.Start

instance : DecidableRel entryLE := fun a b => inferInstanceAs (Decidable (a.Start ≤ b.Start))

instance : IsTotal entry entryLE := ⟨fun a b => Nat.le_total a.Start b.Start⟩

instance : IsTrans entry entryLE := ⟨fun _ _ _ => Nat.le_trans⟩

/-- The merge loop of `readCIDRFileAsRanges` (open.go): the accumulator's
last element is `last`; a range that overlaps or abuts it
(`cur.start <= last.end+1`) extends it to `max(last.end, cur.end)`,
otherwise it is emitted and `cur` becomes the new last element.
`last.end+1` is computed in u32, so it wraps to 0 when
`last.end = 0xFFFFFFFF` and the range is then appended, not merged. -/
def mergeAdj : ipRange → List ipRange → List ipRange
  | last, [] => [last]
  | last, cur :: rest =>
    if cur.start ≤ (last.end_ + 1) % 2 ^ 32 then
      mergeAdj ⟨last.start, max last.end_ cur.end_⟩ rest
    else
      last :: mergeAdj cur rest

/-- Sort-and-merge normalization at the end of `readCIDRFileAsRanges`. -/
def mergeRanges (rs : List ipRange) : List ipRange :=
  match List.insertionSort rangeLE rs with
  | [] => []
  | r :: rest => mergeAdj r rest

/-- `splitEntries` (open.go): emit the three parallel u32 arrays. -/
def splitEntries (entries : List entry) : List Nat × List Nat × List Nat :=
  (entries.map entry.Start, entries.map entry.End, entries.map entry.Label)

/-- One source file of a category, already reduced to its parsed CIDR
ranges: `Build` derives `label` from the file name and
`readCIDRFileAsRanges` yields the ranges before normalization. -/
structure SourceFile where
  label : Nat
  ranges : List ipRange

/-- The per-category pipeline of `Build` (open.go): per-file sort+merge,
concatenate tagged entries, sort by start, validate, split into the three
parallel arrays.  `none` models the build aborting with the overlap error. -/
def buildCategory (files : List SourceFile) : Option (List Nat × List Nat × List Nat) :=
  let entries := files.flatMap fun f =>
    (mergeRanges f.ranges).map fun r => entry.mk r.start r.end_ f.label
  let sorted := List.insertionSort entryLE entries
  if validateNoOverlapDifferentLabel sorted then some (splitEntries sorted) else none

/-- `bits.TrailingZeros32`: index of the least set bit, 32 for zero. -/
def tz32 (n : Nat) : Nat :=
  ((List.range 32).find? fun i => n.testBit i).getD 32

/-- One iteration body fragment of `rangeToCIDRs` (generate.go): widen
`maxLen` while the block `1 << (32-maxLen)` does not fit `remaining`.
The loop runs at most `32 - maxLen` times (structural fuel). -/
def widenGo (remaining : Nat) : Nat → Nat → Nat
  | 0, maxLen => maxLen
  | fuel + 1, maxLen =>
    if maxLen < 32 then
      if 2 ^ (32 - maxLen) ≤ remaining then maxLen else widenGo remaining fuel (maxLen + 1)
    else maxLen

def widen (remaining : Nat) (maxLen : Nat) : Nat :=
  widenGo remaining (32 - maxLen) maxLen

/-- `maxSize` of one `rangeToCIDRs` iteration: `cur & -cur` over u32 is
`cur &&& (2^32 - cur)` in two's complement (0 when `cur = 0`, then
clamped to `1 << 31` as in the Go source). -/
def maxSizeOf (cur : Nat) : Nat :=
  if cur &&& (2 ^ 32 - cur) = 0 then 2 ^ 31 else cur &&& (2 ^ 32 - cur)

/-- `maxLen := 32 - bits.TrailingZeros32(maxSize)`. -/
def maxLen0Of (cur : Nat) : Nat := 32 - tz32 (maxSizeOf cur)

/-- `remaining := end - cur + 1` over u32: wraps to 0 exactly when
`cur = 0` and `end = 2^32 - 1`. -/
def remainingOf (e cur : Nat) : Nat := (e - cur + 1) % 2 ^ 32

/-- The widened `maxLen` of one `rangeToCIDRs` iteration. -/
def maxLenOf (e cur : Nat) : Nat := widen (remainingOf e cur) (maxLen0Of cur)

/-- `step := uint32(1) << (32 - maxLen)`.  Never zero: `maxLen ≥ 1`,
so the Go `step == 0` error branch is unreachable. -/
def stepOf (e cur : Nat) : Nat := 2 ^ (32 - maxLenOf e cur)

/-- The main loop of `rangeToCIDRs` (generate.go): emit a block at `cur`
and continue at `next = cur + step` (u32).  `next <= cur` detects
overflow and ends the loop; it also subsumes the Go `cur == 0` break,
since `next = 0` implies `next <= cur`.  Each iteration strictly
increases `cur`, so `e + 1 - cur` bounds the iteration count and serves
as structural fuel. -/
def rangeLoopGo (e : Nat) : Nat → Nat → List (Nat × Nat)
  | 0, _ => []
  | fuel + 1, cur =>
    if cur ≤ e then
      (cur, maxLenOf e cur) ::
        (if (cur + stepOf e cur) % 2 ^ 32 ≤ cur then []
         else rangeLoopGo e fuel ((cur + stepOf e cur) % 2 ^ 32))
    else []

def rangeLoop (e : Nat) (cur : Nat) : List (Nat × Nat) :=
  rangeLoopGo e (e + 1 - cur) cur

/-- `rangeToCIDRs` (generate.go): decompose inclusive `[start, e]` into
canonical CIDR blocks `(base, prefixLen)`. -/
def rangeToCIDRs (start e : Nat) : List (Nat × Nat) :=
  if e < start then [] else rangeLoop e start

/-!
### File loader model (open.go `parseV4` / `parseV4v2`)

The mapped file is a byte sequence `List Nat`.  Outcomes distinguish
a successful parse, the `ErrInvalidDB` error, and a runtime fault
(a Go slice-bounds panic).  Every slicing the Go code performs behind
an explicit bounds check is modelled by a total read; the reads of the
22 section-header fields are *not* bounds-checked in the Go code and
are modelled by `readU32Sec`, which faults when the section is shorter
than the field needs.  The model assumes a little-endian host, so the
big-endian in-place swap (`swapFixedTablesLEToHost`) is skipped, as it
is on all common Go targets.
-/

inductive POut (α : Type) where
  | ok (v : α)
  | invalid
  | fault
deriving DecidableEq, Repr

instance : Monad POut where
  pure := POut.ok
  bind m f := match m with
    | .ok v => f v
    | .invalid => .invalid
    | .fault => .fault

def readU16LE (b : List Nat) (off : Nat) : Nat :=
  b.getD off 0 + 256 * b.getD (off + 1) 0

def readU32LE (b : List Nat) (off : Nat) : Nat :=
  b.getD off 0 + 256 * b.getD (off + 1) 0 + 65536 * b.getD (off + 2) 0 +
    16777216 * b.getD (off + 3) 0

/-- One of the 22 `binary.LittleEndian.Uint32(sec[off : off+4])` reads in
`parseV4v2`, where `sec := b[secOff : secOff+secSize]`.  A Go re-slice
is bounded by the capacity `cap(sec) = len(b) - secOff`, not by
`len(sec) = secSize`, so the read sees bytes `b[secOff+off ..]` and
panics exactly when `off + 4 > cap(sec)`, i.e. when it runs past the
end of the mapped file. -/
def readU32Sec (b : List Nat) (secOff off : Nat) : POut Nat :=
  if secOff + off + 4 ≤ b.length then .ok (readU32LE b (secOff + off)) else .fault

/-- `label2` (8-byte record). -/
structure label2 where
  Code : Nat
  Name : Nat
deriving DecidableEq, Repr

/-- `providerLabel` (12-byte record). -/
structure providerLabel where
  Key : Nat
  Name : Nat
  Kind : Nat
deriving DecidableEq, Repr

/-- The record loop of `parseStringsTable` (open.go), recursing on the
declared count; returns the `start`/`end` index arrays.  Every read is
behind the Go bounds checks, so the loop never faults. -/
def stringsLoop (b : List Nat) (pos : Nat) : Nat → POut (List Nat × List Nat)
  | 0 => .ok ([], [])
  | c + 1 =>
    if pos + 2 > b.length then .invalid
    else
      let l := readU16LE b pos
      if pos + 2 + l > b.length then .invalid
      else do
        let (s, e) ← stringsLoop b (pos + 2 + l) c
        .ok ((pos + 2) :: s, (pos + 2 + l) :: e)

/-- `parseStringsTable` (open.go). -/
def parseStringsTable (b : List Nat) : POut (List Nat × List Nat × List Nat) := do
  if b.length < 4 then .invalid
  else
    let (s, e) ← stringsLoop b 4 (readU32LE b 0)
    .ok (b, s, e)

/-- `sliceFixed[uint32]` (open.go): `off <= 0` is `off = 0` over `Nat`,
`count < 0` cannot occur (counts come from u32 fields). -/
def sliceU32 (b : List Nat) (off cnt : Nat) : POut (List Nat) :=
  if off = 0 ∧ cnt = 0 then .ok []
  else if off = 0 ∨ off + 4 * cnt > b.length then .invalid
  else .ok ((List.range cnt).map fun i => readU32LE b (off + 4 * i))

/-- `sliceFixed[label2]` (8-byte records). -/
def sliceLabel2 (b : List Nat) (off cnt : Nat) : POut (List label2) :=
  if off = 0 ∧ cnt = 0 then .ok []
  else if off = 0 ∨ off + 8 * cnt > b.length then .invalid
  else .ok ((List.range cnt).map fun i =>
    label2.mk (readU32LE b (off + 8 * i)) (readU32LE b (off + 8 * i + 4)))

/-- `sliceFixed[providerLabel]` (12-byte records). -/
def sliceProviderLabel (b : List Nat) (off cnt : Nat) : POut (List providerLabel) :=
  if off = 0 ∧ cnt = 0 then .ok []
  else if off = 0 ∨ off + 12 * cnt > b.length then .invalid
  else .ok ((List.range cnt).map fun i =>
    providerLabel.mk (readU32LE b (off + 12 * i)) (readU32LE b (off + 12 * i + 4))
      (readU32LE b (off + 12 * i + 8)))

/-- `v4DB.str` (open.go): bounds-checked string-table access; out-of-range
or inverted spans yield the empty string. -/
def strGet (data strt ende : List Nat) (i : Nat) : List Nat :=
  if i ≥ strt.length then []
  else
    let lo := strt.getD i 0
    let hi := ende.getD i 0
    if lo > hi ∨ hi > data.length then []
    else (data.drop lo).take (hi - lo)

/-- Go map insertion: a later insert with an equal key overwrites. -/
def mapInsert (m : List (List Nat × Nat)) (k : List Nat) (v : Nat) : List (List Nat × Nat) :=
  match m with
  | [] => [(k, v)]
  | (k0, v0) :: rest => if k0 = k then (k, v) :: rest else (k0, v0) :: mapInsert rest k v

def mapFind (m : List (List Nat × Nat)) (k : List Nat) : Option Nat :=
  match m with
  | [] => none
  | (k0, v0) :: rest => if k0 = k then some v0 else mapFind rest k

/-- The `providerByKey` loop at the end of `parseV4v2`: interning every
provider key, failing on an empty key. -/
def providerMapLoop (data strt ende : List Nat) (i : Nat)
    (acc : List (List Nat × Nat)) : List providerLabel → POut (List (List Nat × Nat))
  | [] => .ok acc
  | pl :: rest =>
    let key := strGet data strt ende pl.Key
    if key = [] then .invalid
    else providerMapLoop data strt ende (i + 1) (mapInsert acc key i) rest

/-- In-memory database view (`v4DB` in open.go).  The `dense` flag and
bucket arrays of each table are computed by the `V4Table` functions;
`providerKindByKey` is omitted (no claim mentions it). -/
structure v4DB where
  stringsData : List Nat
  stringsStart : List Nat
  stringsEnd : List Nat
  countryLabels : List label2
  cnLabels : List label2
  providerLabels : List providerLabel
  country : V4Table
  cnProv : V4Table
  cnCity : V4Table
  provider : V4Table
  providerByKey : List (List Nat × Nat)
deriving Repr, DecidableEq

/-- `parseV4v2` (open.go), after the strings table has been parsed. -/
def parseV4v2 (sd ss se : List Nat) (b : List Nat) : POut v4DB :=
  let secOff := readU32LE b 24
  let secSize := readU32LE b 28
  if secOff = 0 ∨ secSize = 0 ∨ secOff + secSize > b.length then .invalid
  else
    do
      let countryLabelsOff ← readU32Sec b secOff 0
      let countryLabelsCnt ← readU32Sec b secOff 4
      let cnLabelsOff ← readU32Sec b secOff 8
      let cnLabelsCnt ← readU32Sec b secOff 12
      let providerLabelsOff ← readU32Sec b secOff 16
      let providerLabelsCnt ← readU32Sec b secOff 20
      let countryStartsOff ← readU32Sec b secOff 24
      let countryEndsOff ← readU32Sec b secOff 28
      let countryLblsOff ← readU32Sec b secOff 32
      let countryCnt ← readU32Sec b secOff 36
      let cnProvStartsOff ← readU32Sec b secOff 40
      let cnProvEndsOff ← readU32Sec b secOff 44
      let cnProvLblsOff ← readU32Sec b secOff 48
      let cnProvCnt ← readU32Sec b secOff 52
      let cnCityStartsOff ← readU32Sec b secOff 56
      let cnCityEndsOff ← readU32Sec b secOff 60
      let cnCityLblsOff ← readU32Sec b secOff 64
      let cnCityCnt ← readU32Sec b secOff 68
      let providerStartsOff ← readU32Sec b secOff 72
      let providerEndsOff ← readU32Sec b secOff 76
      let providerLblsOff ← readU32Sec b secOff 80
      let providerCnt ← readU32Sec b secOff 84
      let countryLabels ← sliceLabel2 b countryLabelsOff countryLabelsCnt
      let cnLabels ← sliceLabel2 b cnLabelsOff cnLabelsCnt
      let providerLabels ← sliceProviderLabel b providerLabelsOff providerLabelsCnt
      let countryStarts ← sliceU32 b countryStartsOff countryCnt
      let countryEnds ← sliceU32 b countryEndsOff countryCnt
      let countryLbls ← sliceU32 b countryLblsOff countryCnt
      let cnProvStarts ← sliceU32 b cnProvStartsOff cnProvCnt
      let cnProvEnds ← sliceU32 b cnProvEndsOff cnProvCnt
      let cnProvLbls ← sliceU32 b cnProvLblsOff cnProvCnt
      let cnCityStarts ← sliceU32 b cnCityStartsOff cnCityCnt
      let cnCityEnds ← sliceU32 b cnCityEndsOff cnCityCnt
      let cnCityLbls ← sliceU32 b cnCityLblsOff cnCityCnt
      let providerStarts ← sliceU32 b providerStartsOff providerCnt
      let providerEnds ← sliceU32 b providerEndsOff providerCnt
      let providerLbls ← sliceU32 b providerLblsOff providerCnt
      if countryStarts.length ≠ countryEnds.length ∨
          countryStarts.length ≠ countryLbls.length then .invalid
      else if cnProvStarts.length ≠ cnProvEnds.length ∨
          cnProvStarts.length ≠ cnProvLbls.length then .invalid
      else if cnCityStarts.length ≠ cnCityEnds.length ∨
          cnCityStarts.length ≠ cnCityLbls.length then .invalid
      else if providerStarts.length ≠ providerEnds.length ∨
          providerStarts.length ≠ providerLbls.length then .invalid
      else do
        let pbk ← providerMapLoop sd ss se 0 [] providerLabels
        .ok (v4DB.mk sd ss se countryLabels cnLabels providerLabels
          (V4Table.mk countryStarts countryEnds countryLbls)
          (V4Table.mk cnProvStarts cnProvEnds cnProvLbls)
          (V4Table.mk cnCityStarts cnCityEnds cnCityLbls)
          (V4Table.mk providerStarts providerEnds providerLbls)
          pbk)

/-- `parseV4` (open.go): magic `"IPL4"` is bytes 73,80,76,52; version 2. -/
def parseV4 (b : List Nat) : POut v4DB :=
  if b.length < 64 then .invalid
  else if ¬(b.getD 0 0 = 73 ∧ b.getD 1 0 = 80 ∧ b.getD 2 0 = 76 ∧ b.getD 3 0 = 52) then .invalid
  else if readU16LE b 4 ≠ 2 then .invalid
  else
    let stringsOff := readU32LE b 16
    let stringsSize := readU32LE b 20
    if stringsOff = 0 ∨ stringsSize = 0 ∨ stringsOff + stringsSize > b.length then .invalid
    else do
      let (sd, ss, se) ← parseStringsTable ((b.drop stringsOff).take stringsSize)
      parseV4v2 sd ss se b

/-!
### Lookup API model (provider.go, generate.go)

`netip.Addr` is modelled as either the zero `Addr{}`, an IPv4 address
already packed as `a<<24|b<<16|c<<8|d` (the packing the Go lookup
functions perform on `addr.As4()`), or a non-IPv4 address.  Strings are
byte lists; `ProviderKind` is its underlying integer (0 unknown, 1 ISP,
2 cloud).  The `db == nil || db.v4 == nil` and `dst == nil` guards of
the Go API have no counterpart on total values: the model takes an
opened `v4DB` and a destination record, matching claims about a
successfully opened database and a non-nil destination. -/

inductive NetAddr where
  | zero
  | ip4 (v : Nat)
  | ip6 (v : Nat)
deriving DecidableEq, Repr

def NetAddr.is4 : NetAddr → Bool
  | .ip4 _ => true
  | _ => false

def NetAddr.toU32 : NetAddr → Nat
  | .ip4 v => v
  | _ => 0

/-- `Result` (provider.go). -/
structure Result where
  IP : NetAddr
  CountryCode : List Nat
  CountryName : List Nat
  CNProvinceCode : List Nat
  CNProvinceName : List Nat
  CNCityCode : List Nat
  CNCityName : List Nat
  ProviderKey : List Nat
  ProviderName : List Nat
  ProviderKind : Nat
deriving DecidableEq, Repr

/-- `ResultIDs` (provider.go). -/
structure ResultIDs where
  IP : NetAddr
  CountryID : Nat
  CNProvinceID : Nat
  CNCityID : Nat
  ProviderID : Nat
  ProviderKind : Nat
deriving DecidableEq, Repr

def IDNone : Nat := 2 ^ 32 - 1

/-- `clearResult` (provider.go). -/
def clearResult (dst : Result) : Result :=
  { dst with
    IP := .zero, CountryCode := [], CountryName := [],
    CNProvinceCode := [], CNProvinceName := [],
    CNCityCode := [], CNCityName := [],
    ProviderKey := [], ProviderName := [], ProviderKind := 0 }

/-- `clearResultIDs` (provider.go). -/
def clearResultIDs (dst : ResultIDs) : ResultIDs :=
  { dst with
    IP := .zero, CountryID := IDNone, CNProvinceID := IDNone,
    CNCityID := IDNone, ProviderID := IDNone, ProviderKind := 0 }

def v4DB.str (v : v4DB) (i : Nat) : List Nat :=
  strGet v.stringsData v.stringsStart v.stringsEnd i

/-- `v4DB.countryLabel` (open.go). -/
def v4DB.countryLabel (v : v4DB) (idx : Nat) : List Nat × List Nat :=
  if idx ≥ v.countryLabels.length then ([], [])
  else
    let l := v.countryLabels.getD idx (label2.mk 0 0)
    (v.str l.Code, v.str l.Name)

/-- `v4DB.cnLabel` (open.go). -/
def v4DB.cnLabel (v : v4DB) (idx : Nat) : List Nat × List Nat :=
  if idx ≥ v.cnLabels.length then ([], [])
  else
    let l := v.cnLabels.getD idx (label2.mk 0 0)
    (v.str l.Code, v.str l.Name)

/-- `v4DB.providerLabel` (open.go).  `ProviderKind` is a Go `uint8`, so
the stored u32 kind is truncated mod 256 on conversion. -/
def v4DB.providerLabel (v : v4DB) (idx : Nat) : List Nat × List Nat × Nat :=
  if idx ≥ v.providerLabels.length then ([], [], 0)
  else
    let l := v.providerLabels.getD idx (providerLabel.mk 0 0 0)
    (v.str l.Key, v.str l.Name, l.Kind % 256)

/-- `v4DB.lookupIntoU32` (generate.go): the four category lookups with
the CN-city-over-province preference; the returned error is always nil
in the Go source, so the model returns just the updated record and the
matched flag. -/
def v4DB.lookupIntoU32 (v : v4DB) (ip : Nat) (dst : Result) : Result × Bool :=
  let st0 : Result × Bool :=
    match v.country.lookup ip with
    | some label =>
      let (code, name) := v.countryLabel label
      ({ dst with CountryCode := code, CountryName := name }, true)
    | none => (dst, false)
  let st1 : Result × Bool :=
    match v.cnCity.lookup ip with
    | some label =>
      let (code, name) := v.cnLabel label
      ({ st0.1 with CNCityCode := code, CNCityName := name }, true)
    | none =>
      match v.cnProv.lookup ip with
      | some label =>
        let (code, name) := v.cnLabel label
        ({ st0.1 with CNProvinceCode := code, CNProvinceName := name }, true)
      | none => st0
  match v.provider.lookup ip with
  | some label =>
    let (key, name, kind) := v.providerLabel label
    ({ st1.1 with ProviderKey := key, ProviderName := name, ProviderKind := kind }, true)
  | none => st1

/-- `v4DB.lookupIDsIntoU32` (generate.go).  Note the provider kind is
written only when the label is in range of the provider label table. -/
def v4DB.lookupIDsIntoU32 (v : v4DB) (ip : Nat) (dst : ResultIDs) : ResultIDs × Bool :=
  let st0 : ResultIDs × Bool :=
    match v.country.lookup ip with
    | some label => ({ dst with CountryID := label }, true)
    | none => (dst, false)
  let st1 : ResultIDs × Bool :=
    match v.cnCity.lookup ip with
    | some label => ({ st0.1 with CNCityID := label }, true)
    | none =>
      match v.cnProv.lookup ip with
      | some label => ({ st0.1 with CNProvinceID := label }, true)
      | none => st0
  match v.provider.lookup ip with
  | some label =>
    (if label < v.providerLabels.length then
      { st1.1 with ProviderID := label
                   ProviderKind :=
                     (v.providerLabels.getD label (providerLabel.mk 0 0 0)).Kind % 256 }
     else { st1.1 with ProviderID := label }, true)
  | none => st1

inductive LookupErr where
  | unsupportedIP
deriving DecidableEq, Repr

/-- `DB.LookupAddrInto` (provider.go) on an opened database and non-nil
destination.  `lookupInto` packs `addr.As4()` into a u32 and calls
`lookupIntoU32`; its error is always nil, so the trailing
`if err != nil` clear is dead code. -/
def LookupAddrInto (v : v4DB) (addr : NetAddr) (dst : Result) :
    Result × Bool × Option LookupErr :=
  if ¬addr.is4 then (clearResult dst, false, some .unsupportedIP)
  else
    let d1 := { clearResult dst with IP := addr }
    let (d2, m) := v.lookupIntoU32 addr.toU32 d1
    (d2, m, none)

/-- `DB.LookupAddrIDsInto` (provider.go), same conventions. -/
def LookupAddrIDsInto (v : v4DB) (addr : NetAddr) (dst : ResultIDs) :
    ResultIDs × Bool × Option LookupErr :=
  if ¬addr.is4 then (clearResultIDs dst, false, some .unsupportedIP)
  else
    let d1 := { clearResultIDs dst with IP := addr }
    let (d2, m) := v.lookupIDsIntoU32 addr.toU32 d1
    (d2, m, none)

/-- Little-endian encoders used to assemble concrete test files. -/
def u16le (n : Nat) : List Nat := [n % 256, n / 256 % 256]

def u32le (n : Nat) : List Nat :=
  [n % 256, n / 256 % 256, n / 65536 % 256, n / 16777216 % 256]

/-- A 72-byte file whose header is valid (magic `IPL4`, version 2,
strings span `[64, 68)` holding an empty string table, section span
`[68, 72)`): every open-time bounds check passes, yet the section is
only 4 bytes long, so reading the second of the 22 section fields
slices `sec[4:8]` out of range. -/
def c5Bytes : List Nat :=
  [73, 80, 76, 52] ++ u16le 2 ++ u16le 0 ++ List.replicate 8 0 ++
  u32le 64 ++ u32le 4 ++ u32le 68 ++ u32le 4 ++ List.replicate 32 0 ++
  u32le 0 ++ u32le 0

/-- A 256-byte file that opens successfully and whose provider label
table holds two labels with the same (non-empty) key string `"aa"`:
strings blob at 64 (one string), section header at 72, two 12-byte
provider labels at 232, all interval tables empty. -/
def c9Bytes : List Nat :=
  [73, 80, 76, 52] ++ u16le 2 ++ u16le 0 ++ List.replicate 8 0 ++
  u32le 64 ++ u32le 8 ++ u32le 72 ++ u32le 160 ++ List.replicate 32 0 ++
  (u32le 1 ++ u16le 2 ++ [97, 97]) ++
  (u32le 0 ++ u32le 0 ++ u32le 0 ++ u32le 0 ++ u32le 232 ++ u32le 2 ++
    List.replicate 136 0) ++
  (u32le 0 ++ u32le 0 ++ u32le 1) ++ (u32le 0 ++ u32le 0 ++ u32le 1)

/-- A small concrete database used by witnesses: one CN label with code
and name `"ab"`, one CN-city interval `[5, 10]` with label 0, and a
CN-province interval `[0, 20]` with label 0. -/
def sampleDB : v4DB :=
  v4DB.mk [97, 98] [0] [2] [] [label2.mk 0 0] []
    (V4Table.mk [] [] []) (V4Table.mk [0] [20] [0])
    (V4Table.mk [5] [10] [0]) (V4Table.mk [] [] []) []

/-!
## Theorems
-/

/-- The Go loop in `validateNoOverlapDifferentLabel` reports an error
exactly when some consecutive pair overlaps with differing labels. -/
theorem validate_eq_false_iff (l : List entry) :
    validateNoOverlapDifferentLabel l = false ↔
      ∃ i, i + 1 < l.length ∧ (l.getD (i + 1) entry0).Start ≤ (l.getD i entry0).End ∧
        (l.getD (i + 1) entry0).Label ≠ (l.getD i entry0).Label := by
  induction l with
  | nil => simp [validateNoOverlapDifferentLabel]
  | cons p rest ih =>
    cases rest with
    | nil => simp [validateNoOverlapDifferentLabel]
    | cons c rest2 =>
      have hstep : validateNoOverlapDifferentLabel (p :: c :: rest2) =
          ((if c.Start ≤ p.End then p.Label == c.Label else true) &&
            validateNoOverlapDifferentLabel (c :: rest2)) := rfl
      rw [hstep]
      rw [Bool.and_eq_false_iff]
      constructor
      · rintro (hbad | htail)
        · by_cases hle : c.Start ≤ p.End
          · refine ⟨0, by simp, by simpa using hle, ?_⟩
            simp only [hle, if_pos] at hbad
            have := beq_eq_false_iff_ne.mp hbad
            simpa using fun h => this h.symm
          · simp [hle] at hbad
        · obtain ⟨i, hi, hs, hl⟩ := ih.mp htail
          exact ⟨i + 1, by simpa using hi, by simpa using hs, by simpa using hl⟩
      · rintro ⟨i, hi, hs, hl⟩
        cases i with
        | zero =>
          left
          simp only [List.getD_cons_succ, List.getD_cons_zero] at hs hl
          simp [hs, beq_eq_false_iff_ne]
          exact fun h => hl h.symm
        | succ j =>
          right
          exact ih.mpr ⟨j, by simpa using hi, by simpa using hs, by simpa using hl⟩

/-- The Go loop inside `detectDense` checks exactly indices `0..k-1`. -/
theorem denseChain_iff (starts ends : List Nat) (k : Nat) :
    denseChain starts ends k = true ↔
      ∀ i, i < k → ends.getD i 0 ≠ labelNone ∧
        ends.getD i 0 + 1 = starts.getD (i + 1) 0 := by
  induction k with
  | zero => simp [denseChain]
  | succ k ih =>
    simp only [denseChain, Bool.and_eq_true, ih, Bool.not_eq_true',
      decide_eq_false_iff_not, decide_eq_true_eq]
    constructor
    · rintro ⟨⟨h1, h2⟩, h3⟩ i hi
      rcases Nat.lt_succ_iff_lt_or_eq.mp hi with h | h
      · exact h1 i h
      · subst h; exact ⟨h2, h3⟩
    · intro h
      exact ⟨⟨fun i hi => h i (Nat.lt_succ_of_lt hi), (h k (Nat.lt_succ_self k)).1⟩,
        (h k (Nat.lt_succ_self k)).2⟩

/-- `detectDense` characterization: on u32-valued arrays of equal length
the flag holds exactly on the dense-table invariant. -/
theorem detectDense_iff (t : V4Table)
    (hes : t.ends.length = t.starts.length) (hls : t.labels.length = t.starts.length)
    (hstarts : ∀ v ∈ t.starts, v < 2 ^ 32) :
    t.detectDense = true ↔
      (0 < t.starts.length ∧ t.starts.getD 0 0 = 0 ∧
       t.ends.getD (t.starts.length - 1) 0 = 2 ^ 32 - 1 ∧
       ∀ i, i + 1 < t.starts.length → t.ends.getD i 0 + 1 = t.starts.getD (i + 1) 0) := by
  unfold V4Table.detectDense
  rcases Nat.eq_zero_or_pos t.starts.length with hn | hn
  · simp [hn]
  · have hne : t.starts.length ≠ 0 := Nat.pos_iff_ne_zero.mp hn
    rw [if_neg hne, if_neg (by simp [hes, hls])]
    by_cases h0 : t.starts.getD 0 0 = 0
    · rw [if_neg (not_not_intro h0)]
      simp only [Bool.and_eq_true, denseChain_iff, decide_eq_true_eq]
      constructor
      · rintro ⟨hchain, hlast⟩
        exact ⟨hn, h0, by simpa [hes, labelNone] using hlast,
          fun i hi => (hchain i (by omega)).2⟩
      · rintro ⟨-, -, hlast, hgap⟩
        refine ⟨fun i hi => ⟨?_, hgap i (by omega)⟩, by simpa [hes, labelNone] using hlast⟩
        have hmem : t.starts.getD (i + 1) 0 ∈ t.starts := by
          rw [List.getD_eq_getElem t.starts 0 (by omega)]
          exact List.getElem_mem _
        have := hstarts _ hmem
        have hgi := hgap i (by omega)
        simp only [labelNone]
        omega
    · rw [if_pos h0]
      constructor
      · intro h; simp at h
      · rintro ⟨-, h, -⟩; exact absurd h h0

/-- C4: the dense flag computed at open is true iff the table is
non-empty, `starts[0] = 0`, `ends[n-1] = 2^32 - 1`, and
`ends[i] + 1 = starts[i+1]` for all `i < n-1`. -/
theorem c4_dense_iff (t : V4Table)
    (hes : t.ends.length = t.starts.length) (hls : t.labels.length = t.starts.length)
    (hstarts : ∀ v ∈ t.starts, v < 2 ^ 32) :
    t.detectDense = true ↔
      (0 < t.starts.length ∧ t.starts.getD 0 0 = 0 ∧
       t.ends.getD (t.starts.length - 1) 0 = 2 ^ 32 - 1 ∧
       ∀ i, i + 1 < t.starts.length → t.ends.getD i 0 + 1 = t.starts.getD (i + 1) 0) :=
  detectDense_iff t hes hls hstarts

/-- Witness for C4 at a concrete two-interval dense table. -/
theorem c4_dense_iff_witness :
    ((V4Table.mk [0, 100] [99, 2 ^ 32 - 1] [3, 7]).ends.length =
        (V4Table.mk [0, 100] [99, 2 ^ 32 - 1] [3, 7]).starts.length) ∧
      ((V4Table.mk [0, 100] [99, 2 ^ 32 - 1] [3, 7]).detectDense = true ↔
        (0 < (V4Table.mk [0, 100] [99, 2 ^ 32 - 1] [3, 7]).starts.length ∧
         (V4Table.mk [0, 100] [99, 2 ^ 32 - 1] [3, 7]).starts.getD 0 0 = 0 ∧
         (V4Table.mk [0, 100] [99, 2 ^ 32 - 1] [3, 7]).ends.getD
           ((V4Table.mk [0, 100] [99, 2 ^ 32 - 1] [3, 7]).starts.length - 1) 0 = 2 ^ 32 - 1 ∧
         ∀ i, i + 1 < (V4Table.mk [0, 100] [99, 2 ^ 32 - 1] [3, 7]).starts.length →
           (V4Table.mk [0, 100] [99, 2 ^ 32 - 1] [3, 7]).ends.getD i 0 + 1 =
             (V4Table.mk [0, 100] [99, 2 ^ 32 - 1] [3, 7]).starts.getD (i + 1) 0)) :=
  ⟨by decide,
    c4_dense_iff (V4Table.mk [0, 100] [99, 2 ^ 32 - 1] [3, 7]) (by decide) (by decide)
      (by decide)⟩

/-- C6: For every category, after the concatenated entry list is sorted
by start, the build fails with the overlap error if and only if some
consecutive pair `(prev, cur)` has `cur.start ≤ prev.end` and
`cur.label ≠ prev.label`; consecutive same-label overlap is tolerated. -/
theorem c6_validate_overlap_iff (l : List entry) :
    validateNoOverlapDifferentLabel l = false ↔
      ∃ i, i + 1 < l.length ∧ (l.getD (i + 1) entry0).Start ≤ (l.getD i entry0).End ∧
        (l.getD (i + 1) entry0).Label ≠ (l.getD i entry0).Label :=
  validate_eq_false_iff l

/-- C10: on an opened database, whenever `LookupAddrInto`
(resp. `LookupAddrIDsInto`) returns an error, the destination ends up
fully cleared regardless of its prior contents: zero IP, empty strings
(`IDNone` ids), and `ProviderKind` unknown. -/
theorem c10_clear_on_error (v : v4DB) (addr : NetAddr) (dst : Result) (dsti : ResultIDs) :
    ((LookupAddrInto v addr dst).2.2.isSome = true →
      (LookupAddrInto v addr dst).1 =
        Result.mk .zero [] [] [] [] [] [] [] [] 0) ∧
    ((LookupAddrIDsInto v addr dsti).2.2.isSome = true →
      (LookupAddrIDsInto v addr dsti).1 =
        ResultIDs.mk .zero IDNone IDNone IDNone IDNone 0) := by
  cases addr with
  | zero => exact ⟨fun _ => rfl, fun _ => rfl⟩
  | ip6 w => exact ⟨fun _ => rfl, fun _ => rfl⟩
  | ip4 w =>
    constructor
    · intro h
      simp [LookupAddrInto, NetAddr.is4] at h
    · intro h
      simp [LookupAddrIDsInto, NetAddr.is4] at h

/-- Witness for C10: a non-IPv4 lookup against a tiny database errors
and clears a junk-filled destination. -/
theorem c10_clear_on_error_witness :
    (LookupAddrInto
        (v4DB.mk [] [] [] [] [] [] (V4Table.mk [] [] []) (V4Table.mk [] [] [])
          (V4Table.mk [] [] []) (V4Table.mk [] [] []) [])
        (.ip6 1) (Result.mk (.ip6 3) [1] [2] [3] [4] [5] [6] [7] [8] 9)).2.2.isSome = true ∧
      (LookupAddrInto
        (v4DB.mk [] [] [] [] [] [] (V4Table.mk [] [] []) (V4Table.mk [] [] [])
          (V4Table.mk [] [] []) (V4Table.mk [] [] []) [])
        (.ip6 1) (Result.mk (.ip6 3) [1] [2] [3] [4] [5] [6] [7] [8] 9)).1 =
        Result.mk .zero [] [] [] [] [] [] [] [] 0 :=
  ⟨rfl,
    (c10_clear_on_error
      (v4DB.mk [] [] [] [] [] [] (V4Table.mk [] [] []) (V4Table.mk [] [] [])
        (V4Table.mk [] [] []) (V4Table.mk [] [] []) [])
      (.ip6 1) (Result.mk (.ip6 3) [1] [2] [3] [4] [5] [6] [7] [8] 9)
      (ResultIDs.mk .zero 0 0 0 0 0)).1 rfl⟩

/-- C7: when the CN city table matches, the province table's result is
never surfaced: starting from a cleared destination, the full result
carries the city code/name and empty province fields, and the IDs result
carries `CNCityID` with `CNProvinceID = IDNone` — whatever the province
table holds. -/
theorem c7_city_over_province (v : v4DB) (ip : Nat) (dst : Result) (dsti : ResultIDs)
    (l : Nat) (hcity : v.cnCity.lookup ip = some l) :
    (v.lookupIntoU32 ip (clearResult dst)).1.CNCityCode = (v.cnLabel l).1 ∧
    (v.lookupIntoU32 ip (clearResult dst)).1.CNCityName = (v.cnLabel l).2 ∧
    (v.lookupIntoU32 ip (clearResult dst)).1.CNProvinceCode = [] ∧
    (v.lookupIntoU32 ip (clearResult dst)).1.CNProvinceName = [] ∧
    (v.lookupIDsIntoU32 ip (clearResultIDs dsti)).1.CNCityID = l ∧
    (v.lookupIDsIntoU32 ip (clearResultIDs dsti)).1.CNProvinceID = IDNone := by
  unfold v4DB.lookupIntoU32 v4DB.lookupIDsIntoU32
  rw [hcity]
  cases hc : v.country.lookup ip <;> cases hp : v.provider.lookup ip <;>
    simp [clearResult, clearResultIDs, hc, hp] <;>
    split <;> simp

/-- Witness for C7 on `sampleDB`, where both the city and the province
tables contain the address 7. -/
theorem c7_city_over_province_witness :
    sampleDB.cnCity.lookup 7 = some 0 ∧
    sampleDB.cnProv.lookup 7 = some 0 ∧
    (sampleDB.lookupIntoU32 7 (clearResult (Result.mk .zero [] [] [] [] [] [] [] [] 0))).1.CNCityCode =
      (sampleDB.cnLabel 0).1 ∧
    (sampleDB.lookupIntoU32 7 (clearResult (Result.mk .zero [] [] [] [] [] [] [] [] 0))).1.CNProvinceCode = [] ∧
    (sampleDB.lookupIDsIntoU32 7 (clearResultIDs (ResultIDs.mk .zero 0 0 0 0 0))).1.CNCityID = 0 ∧
    (sampleDB.lookupIDsIntoU32 7 (clearResultIDs (ResultIDs.mk .zero 0 0 0 0 0))).1.CNProvinceID = IDNone := by
  have h := c7_city_over_province sampleDB 7 (Result.mk .zero [] [] [] [] [] [] [] [] 0)
    (ResultIDs.mk .zero 0 0 0 0 0) 0 (by decide)
  exact ⟨by decide, by decide, h.1, h.2.2.1, h.2.2.2.2.1, h.2.2.2.2.2⟩

/-- The cursor loop `for i < n && vals[i] < key { i++ }` stops at the
first position from `i` on whose value reaches `key` (or at `n`). -/
theorem advanceGo_spec (vals : List Nat) (key : Nat) :
    ∀ fuel i, vals.length ≤ i + fuel →
      i ≤ advanceGo vals key fuel i ∧
      advanceGo vals key fuel i ≤ max i vals.length ∧
      (∀ j, i ≤ j → j < advanceGo vals key fuel i → vals.getD j 0 < key) ∧
      (advanceGo vals key fuel i < vals.length →
        key ≤ vals.getD (advanceGo vals key fuel i) 0) := by
  intro fuel
  induction fuel with
  | zero =>
    intro i hf
    simp only [advanceGo]
    exact ⟨le_refl i, le_max_left i _, fun j h1 h2 => absurd h2 (by omega),
      fun h => absurd h (by omega)⟩
  | succ fuel ih =>
    intro i hf
    simp only [advanceGo]
    by_cases hi : i < vals.length
    · rw [if_pos hi]
      by_cases hv : vals.getD i 0 < key
      · rw [if_pos hv]
        obtain ⟨a, b, c, d⟩ := ih (i + 1) (by omega)
        refine ⟨by omega, by omega, ?_, d⟩
        intro j h1 h2
        rcases Nat.eq_or_lt_of_le h1 with he | hlt
        · exact he ▸ hv
        · exact c j hlt h2
      · rw [if_neg hv]
        exact ⟨le_refl i, le_max_left i _, fun j h1 h2 => absurd h2 (by omega),
          fun _ => le_of_not_lt hv⟩
    · rw [if_neg hi]
      exact ⟨le_refl i, le_max_left i _, fun j h1 h2 => absurd h2 (by omega),
        fun h => absurd h hi⟩

theorem advance_spec (vals : List Nat) (key : Nat) (i : Nat) :
    i ≤ advance vals key i ∧
    advance vals key i ≤ max i vals.length ∧
    (∀ j, i ≤ j → j < advance vals key i → vals.getD j 0 < key) ∧
    (advance vals key i < vals.length → key ≤ vals.getD (advance vals key i) 0) :=
  advanceGo_spec vals key (vals.length - i) i (by omega)

/-- Below the wrap point, `uint32(p) << 16` is just `p * 65536`. -/
theorem bucketKey_eq (p : Nat) (hp : p ≤ 65535) : bucketKey p = p * 65536 := by
  unfold bucketKey
  exact Nat.mod_eq_of_lt (by omega)

/-- A cursor with key 0 does not move: no u32 is below 0. -/
theorem advance_key_zero (vals : List Nat) (i : Nat) : advance vals 0 i = i := by
  obtain ⟨a, -, c, -⟩ := advance_spec vals 0 i
  by_contra hne
  have hlt : i < advance vals 0 i := lt_of_le_of_ne a fun h => hne h.symm
  exact absurd (c i (le_refl i) hlt) (by omega)

theorem bucketCursor_succ (vals : List Nat) (p : Nat) :
    bucketCursor vals (p + 1) = advance vals (bucketKey (p + 1)) (bucketCursor vals p) := rfl

/-- The last outer iteration of `buildBuckets16` has `p = 65536`, whose
key `uint32(p) << 16` wraps to 0, so the final cursor `startGE[65536]`
freezes at the `p = 65535` cursor. -/
theorem bucketCursor_freeze (vals : List Nat) :
    bucketCursor vals 65536 = bucketCursor vals 65535 := by
  rw [show (65536 : Nat) = 65535 + 1 from rfl, bucketCursor_succ,
    show bucketKey (65535 + 1) = 0 by decide, advance_key_zero]

/-- Below the wrap point (`p ≤ 65535`), the bucket cursor after prefix
`p` is the least index whose value reaches `p << 16` (or the array
length when there is none). -/
theorem bucketCursor_spec (vals : List Nat) :
    ∀ p, p ≤ 65535 → bucketCursor vals p ≤ vals.length ∧
      (∀ j, j < bucketCursor vals p → vals.getD j 0 < p * 65536) ∧
      (bucketCursor vals p < vals.length →
        p * 65536 ≤ vals.getD (bucketCursor vals p) 0) := by
  intro p
  induction p with
  | zero =>
    intro _
    obtain ⟨a, b, c, d⟩ := advance_spec vals (bucketKey 0) 0
    have hk : bucketKey 0 = 0 := rfl
    rw [hk] at c d
    refine ⟨by simpa using b, fun j hj => ?_, fun h => by omega⟩
    exact absurd (c j (Nat.zero_le j) hj) (by omega)
  | succ p ih =>
    intro hp
    obtain ⟨hlen, hbelow, hat⟩ := ih (by omega)
    have hk : bucketKey (p + 1) = (p + 1) * 65536 := bucketKey_eq (p + 1) hp
    obtain ⟨a, b, c, d⟩ := advance_spec vals ((p + 1) * 65536) (bucketCursor vals p)
    rw [← hk] at a b c d
    refine ⟨?_, ?_, ?_⟩
    · rw [bucketCursor_succ]
      omega
    · intro j hj
      rw [bucketCursor_succ] at hj
      by_cases hjp : j < bucketCursor vals p
      · have h1 := hbelow j hjp
        have h2 : p * 65536 ≤ (p + 1) * 65536 := by omega
        omega
      · have := c j (by omega) hj
        omega
    · intro h
      rw [bucketCursor_succ] at h ⊢
      have := d h
      omega

/-- When every start sits below the top /16 block, the `p = 65535`
cursor over the starts runs off the end of the array. -/
theorem bucketCursor_starts_full (t : V4Table)
    (htop : ∀ j, j < t.starts.length → t.starts.getD j 0 < 65535 * 65536) :
    bucketCursor t.starts 65535 = t.starts.length := by
  obtain ⟨ha, hb, hc⟩ := bucketCursor_spec t.starts 65535 (le_refl _)
  rcases Nat.eq_or_lt_of_le ha with he | hlt
  · exact he
  · have h1 := htop _ hlt
    have h2 := hc hlt
    omega

/-- Bucket-window completeness for addresses whose interval starts all
lie below the frozen top block: every interval containing `x` has index
in `[endGE[x>>16], startGE[(x>>16)+1])`. -/
theorem bucket_window_complete (t : V4Table)
    (hsorted : ∀ j, j < t.starts.length → ∀ i, i < j →
      t.starts.getD i 0 < t.starts.getD j 0)
    (htop : ∀ j, j < t.starts.length → t.starts.getD j 0 < 65535 * 65536) :
    ∀ x, x < 2 ^ 32 →
      ∀ i, i < t.starts.length → t.starts.getD i 0 ≤ x → x ≤ t.ends.getD i 0 →
      bucketCursor t.ends (x / 65536) ≤ i ∧ i < bucketCursor t.starts (x / 65536 + 1) := by
  intro x hx32 i hi hs hx
  have hdm : 65536 * (x / 65536) + x % 65536 = x := Nat.div_add_mod x 65536
  have hmod : x % 65536 < 65536 := Nat.mod_lt _ (by omega)
  have hple : x / 65536 ≤ 65535 := by omega
  constructor
  · by_contra hcon
    push_neg at hcon
    have hbelow := (bucketCursor_spec t.ends (x / 65536) hple).2.1 i hcon
    have hdm2 : x / 65536 * 65536 ≤ x := Nat.div_mul_le_self x 65536
    omega
  · rcases Nat.lt_or_ge (x / 65536 + 1) 65536 with hq | hq
    · by_contra hcon
      push_neg at hcon
      obtain ⟨ha, hb, hc⟩ := bucketCursor_spec t.starts (x / 65536 + 1) (by omega)
      have hclt : bucketCursor t.starts (x / 65536 + 1) < t.starts.length :=
        lt_of_le_of_lt hcon hi
      have hatc := hc hclt
      rcases Nat.eq_or_lt_of_le hcon with he | hlt
      · rw [he] at hatc
        omega
      · have := hsorted i hi (bucketCursor t.starts (x / 65536 + 1)) hlt
        omega
    · have hq65535 : x / 65536 = 65535 := by omega
      rw [hq65535, show (65535 + 1 : Nat) = 65536 from rfl, bucketCursor_freeze,
        bucketCursor_starts_full t htop]
      exact hi

/-- On the one-interval table whose start is `0xFFFF0000`, no bucket
key up to `65535 << 16` exceeds the start, so the starts cursor never
moves off index 0. -/
theorem bucketCursor_top_starts_65535 : bucketCursor [(4294901760 : Nat)] 65535 = 0 := by
  obtain ⟨ha, hb, -⟩ := bucketCursor_spec [(4294901760 : Nat)] 65535 (le_refl _)
  by_contra hne
  have h0 : 0 < bucketCursor [(4294901760 : Nat)] 65535 := Nat.pos_of_ne_zero hne
  have hlt := hb 0 h0
  have hgd : ([(4294901760 : Nat)].getD 0 0) = 4294901760 := rfl
  rw [hgd] at hlt
  omega

/-- The frozen final cursor: `startGE[65536]` stays at 0 on the
top-block table, because `uint32(65536) << 16` wraps to key 0. -/
theorem bucketCursor_top_starts_65536 : bucketCursor [(4294901760 : Nat)] 65536 = 0 := by
  rw [bucketCursor_freeze]
  exact bucketCursor_top_starts_65535

/-- `bucket_hi` for the top /16 prefix of the top-block table is 0. -/
theorem bucketHi16_top_zero :
    (V4Table.mk [4294901760] [4294967295] [7]).bucketHi16 (4294901761 / 65536) = 0 := by
  have hdiv : (4294901761 : Nat) / 65536 = 65535 := by omega
  show bucketCursor [(4294901760 : Nat)] (4294901761 / 65536 + 1) = 0
  rw [hdiv, show (65535 + 1 : Nat) = 65536 from rfl]
  exact bucketCursor_top_starts_65536

/-- C2 (code bug): `buildBuckets16` computes each cursor key as
`uint32(p) << 16`, which wraps to 0 on the last outer iteration
`p = 65536`; `bucket_hi[65535]` (`startGE[65536]`) therefore freezes at
the `p = 65535` cursor instead of covering starts in the top /16 block.
On the table `{[0xFFFF0000, 0xFFFFFFFF] ↦ 7}` the address `0xFFFF0001`
lies in interval 0, yet `bucket_hi[0xFFFF0001 >> 16] = 0`, so the
window `[bucket_lo[p], bucket_hi[p])` claimed to contain every
candidate index is empty: the claimed bucket characterization fails. -/
theorem c2_bucket_top_block_bug :
    ((V4Table.mk [4294901760] [4294967295] [7]).starts.getD 0 0 ≤ 4294901761 ∧
      4294901761 ≤ (V4Table.mk [4294901760] [4294967295] [7]).ends.getD 0 0 ∧
      0 < (V4Table.mk [4294901760] [4294967295] [7]).starts.length) ∧
    (V4Table.mk [4294901760] [4294967295] [7]).bucketHi16 (4294901761 / 65536) = 0 ∧
    ¬ ((V4Table.mk [4294901760] [4294967295] [7]).bucketLo16 (4294901761 / 65536) ≤ 0 ∧
        0 < (V4Table.mk [4294901760] [4294967295] [7]).bucketHi16 (4294901761 / 65536)) := by
  refine ⟨by decide, bucketHi16_top_zero, ?_⟩
  rintro ⟨-, hpos⟩
  rw [bucketHi16_top_zero] at hpos
  exact absurd hpos (by omega)

/-- The descending linear scan finds the largest index in `[lo, idx]`
whose start is at most `ip`, or reports that there is none. -/
theorem scanDown_spec (starts : List Nat) (ip lo : Nat) :
    ∀ idx,
      (∀ r, scanDown starts ip lo idx = some r →
        lo ≤ r ∧ r ≤ idx ∧ starts.getD r 0 ≤ ip ∧
          ∀ k, r < k → k ≤ idx → ip < starts.getD k 0) ∧
      (scanDown starts ip lo idx = none →
        ∀ k, lo ≤ k → k ≤ idx → ip < starts.getD k 0) := by
  intro idx
  induction idx with
  | zero =>
    constructor
    · intro r hr
      simp only [scanDown] at hr
      by_cases h0 : 0 < lo
      · rw [if_pos h0] at hr; cases hr
      · rw [if_neg h0] at hr
        by_cases hv : ip < starts.getD 0 0
        · rw [if_pos hv] at hr; cases hr
        · rw [if_neg hv] at hr
          cases hr
          exact ⟨by omega, le_refl 0, le_of_not_lt hv, fun k h1 h2 => by omega⟩
    · intro hr k h1 h2
      simp only [scanDown] at hr
      by_cases h0 : 0 < lo
      · omega
      · rw [if_neg h0] at hr
        by_cases hv : ip < starts.getD 0 0
        · have : k = 0 := by omega
          exact this ▸ hv
        · rw [if_neg hv] at hr; cases hr
  | succ n ih =>
    constructor
    · intro r hr
      simp only [scanDown] at hr
      by_cases h0 : n + 1 < lo
      · rw [if_pos h0] at hr; cases hr
      · rw [if_neg h0] at hr
        by_cases hv : ip < starts.getD (n + 1) 0
        · rw [if_pos hv] at hr
          obtain ⟨a, b, c, d⟩ := ih.1 r hr
          refine ⟨a, by omega, c, fun k h1 h2 => ?_⟩
          rcases Nat.lt_succ_iff_lt_or_eq.mp (Nat.lt_succ_of_le h2) with h | h
          · exact d k h1 (by omega)
          · exact h ▸ hv
        · rw [if_neg hv] at hr
          cases hr
          exact ⟨by omega, le_refl _, le_of_not_lt hv, fun k h1 h2 => by omega⟩
    · intro hr k h1 h2
      simp only [scanDown] at hr
      by_cases h0 : n + 1 < lo
      · omega
      · rw [if_neg h0] at hr
        by_cases hv : ip < starts.getD (n + 1) 0
        · rw [if_pos hv] at hr
          rcases Nat.lt_succ_iff_lt_or_eq.mp (Nat.lt_succ_of_le h2) with h | h
          · exact ih.2 hr k h1 (by omega)
          · exact h ▸ hv
        · rw [if_neg hv] at hr; cases hr

/-- The lower-bound binary search: on a strictly sorted array it ends at
the first in-window index whose start exceeds `ip`. -/
theorem bsearchGo_spec (starts : List Nat) (ip : Nat)
    (hsorted : ∀ j, j < starts.length → ∀ i, i < j →
      starts.getD i 0 < starts.getD j 0) :
    ∀ fuel i j, j - i ≤ fuel → j ≤ starts.length → i ≤ j →
      i ≤ bsearchGo starts ip fuel i j ∧
      bsearchGo starts ip fuel i j ≤ j ∧
      (∀ k, bsearchGo starts ip fuel i j ≤ k → k < j → ip < starts.getD k 0) ∧
      (i < bsearchGo starts ip fuel i j →
        starts.getD (bsearchGo starts ip fuel i j - 1) 0 ≤ ip) := by
  intro fuel
  induction fuel with
  | zero =>
    intro i j hf hj hij
    have : i = j := by omega
    subst this
    simp only [bsearchGo]
    exact ⟨le_refl i, le_refl i, fun k h1 h2 => by omega, fun h => by omega⟩
  | succ fuel ih =>
    intro i j hf hj hij
    simp only [bsearchGo]
    by_cases hlt : i < j
    · rw [if_pos hlt]
      have hm1 : i ≤ (i + j) / 2 := by omega
      have hm2 : (i + j) / 2 < j := by omega
      by_cases hv : ip < starts.getD ((i + j) / 2) 0
      · rw [if_pos hv]
        obtain ⟨a, b, c, d⟩ := ih i ((i + j) / 2) (by omega) (by omega) hm1
        refine ⟨a, by omega, fun k h1 h2 => ?_, d⟩
        by_cases hk : k < (i + j) / 2
        · exact c k h1 hk
        · rcases Nat.eq_or_lt_of_le (le_of_not_lt hk) with he | hlt2
          · exact he ▸ hv
          · exact lt_trans hv (hsorted k (by omega) ((i + j) / 2) hlt2)
      · rw [if_neg hv]
        obtain ⟨a, b, c, d⟩ := ih ((i + j) / 2 + 1) j (by omega) hj (by omega)
        refine ⟨by omega, b, c, fun h => ?_⟩
        by_cases hr : (i + j) / 2 + 1 < bsearchGo starts ip fuel ((i + j) / 2 + 1) j
        · exact d hr
        · have : bsearchGo starts ip fuel ((i + j) / 2 + 1) j = (i + j) / 2 + 1 := by omega
          rw [this]
          simpa using le_of_not_lt hv
    · rw [if_neg hlt]
      exact ⟨le_refl i, by omega, fun k h1 h2 => by omega, fun h => by omega⟩

/-- The forward direction of dense detection: a set `dense` flag yields
the four dense-table facts (no value bounds needed). -/
theorem detectDense_props (t : V4Table) (hd : t.detectDense = true) :
    0 < t.starts.length ∧ t.starts.getD 0 0 = 0 ∧
      t.ends.getD (t.starts.length - 1) 0 = 2 ^ 32 - 1 ∧
      ∀ i, i + 1 < t.starts.length → t.ends.getD i 0 + 1 = t.starts.getD (i + 1) 0 := by
  unfold V4Table.detectDense at hd
  by_cases hn : t.starts.length = 0
  · rw [if_pos hn] at hd; cases hd
  · rw [if_neg hn] at hd
    by_cases hlen : t.starts.length ≠ t.ends.length || t.starts.length ≠ t.labels.length
    · rw [if_pos hlen] at hd; cases hd
    · rw [if_neg hlen] at hd
      by_cases h0 : t.starts.getD 0 0 ≠ 0
      · rw [if_pos h0] at hd; cases hd
      · rw [if_neg h0] at hd
        rw [Bool.and_eq_true, denseChain_iff] at hd
        obtain ⟨hchain, hlast⟩ := hd
        have hese : t.ends.length = t.starts.length := by
          simp only [Bool.or_eq_true, decide_eq_true_eq] at hlen
          push_neg at hlen
          omega
        refine ⟨by omega, by simpa using h0, ?_, fun i hi => (hchain i (by omega)).2⟩
        rw [← hese]
        simpa [labelNone] using hlast

/-- Under pairwise disjointness, at most one interval contains an
address. -/
theorem containing_unique (t : V4Table)
    (hdisj : ∀ j, j < t.starts.length → ∀ i, i < j →
      t.ends.getD i 0 < t.starts.getD j 0 ∨ t.ends.getD j 0 < t.starts.getD i 0)
    (ip i j : Nat) (hi : i < t.starts.length) (hj : j < t.starts.length)
    (hsi : t.starts.getD i 0 ≤ ip) (hei : ip ≤ t.ends.getD i 0)
    (hsj : t.starts.getD j 0 ≤ ip) (hej : ip ≤ t.ends.getD j 0) : i = j := by
  rcases lt_trichotomy i j with h | h | h
  · rcases hdisj j hj i h with hc | hc <;> omega
  · exact h
  · rcases hdisj i hi j h with hc | hc <;> omega

/-- The common tail of both search strategies: once `idx` is the largest
index whose start is at most `ip`, `tailCheck` hits exactly the interval
containing `ip` (treating `labelNone` as a miss on dense tables). -/
theorem tailCheck_iff (t : V4Table) (ip idx : Nat)
    (hip : ip < 2 ^ 32)
    (hse : ∀ i, i < t.starts.length → t.starts.getD i 0 ≤ t.ends.getD i 0)
    (hsorted : ∀ j, j < t.starts.length → ∀ i, i < j →
      t.starts.getD i 0 < t.starts.getD j 0)
    (hdisj : ∀ j, j < t.starts.length → ∀ i, i < j →
      t.ends.getD i 0 < t.starts.getD j 0 ∨ t.ends.getD j 0 < t.starts.getD i 0)
    (hidx : idx < t.starts.length)
    (hsx : t.starts.getD idx 0 ≤ ip)
    (habove : ∀ k, idx < k → k < t.starts.length → ip < t.starts.getD k 0) :
    ∀ l, t.tailCheck ip idx = some l ↔
      ∃ i, i < t.starts.length ∧ t.starts.getD i 0 ≤ ip ∧ ip ≤ t.ends.getD i 0 ∧
        t.labels.getD i 0 = l ∧ (t.detectDense = true → l ≠ labelNone) := by
  intro l
  simp only [V4Table.tailCheck]
  by_cases hd : t.detectDense = true
  · rw [if_pos hd]
    obtain ⟨hn, h0, hlast, hgap⟩ := detectDense_props t hd
    have hcontain : ip ≤ t.ends.getD idx 0 := by
      by_cases hlastidx : idx + 1 < t.starts.length
      · have hgapi := hgap idx hlastidx
        have := habove (idx + 1) (by omega) hlastidx
        omega
      · have hix : idx = t.starts.length - 1 := by omega
        rw [hix, hlast]
        omega
    by_cases hnone : t.labels.getD idx 0 = labelNone
    · rw [if_pos hnone]
      constructor
      · intro h; cases h
      · rintro ⟨i, hi, hsi, hei, hlab, hdense⟩
        have hieq : i = idx :=
          containing_unique t hdisj ip i idx hi hidx hsi hei hsx hcontain
        subst hieq
        exact absurd (hlab.symm.trans hnone) (hdense hd)
    · rw [if_neg hnone]
      constructor
      · intro h
        injection h with h
        exact ⟨idx, hidx, hsx, hcontain, h, fun _ => h ▸ hnone⟩
      · rintro ⟨i, hi, hsi, hei, hlab, -⟩
        have hieq : i = idx :=
          containing_unique t hdisj ip i idx hi hidx hsi hei hsx hcontain
        subst hieq
        exact congrArg some hlab
  · rw [if_neg hd]
    by_cases hover : t.ends.getD idx 0 < ip
    · rw [if_pos hover]
      constructor
      · intro h; cases h
      · rintro ⟨i, hi, hsi, hei, hlab, -⟩
        rcases lt_trichotomy i idx with h | h | h
        · rcases hdisj idx hidx i h with hc | hc
          · omega
          · have hs2 := hsorted idx hidx i h
            have := hse idx hidx
            omega
        · subst h; omega
        · exact absurd hsi (not_le_of_lt (habove i h hi))
    · rw [if_neg hover]
      constructor
      · intro h
        injection h with h
        exact ⟨idx, hidx, hsx, le_of_not_lt hover, h, fun hdd => absurd hdd hd⟩
      · rintro ⟨i, hi, hsi, hei, hlab, -⟩
        have hieq : i = idx := containing_unique t hdisj ip i idx hi hidx hsi hei hsx
          (le_of_not_lt hover)
        subst hieq
        exact congrArg some hlab

/-- Within a window `[lo, hi)`, both search strategies either find the
largest index with `starts[idx] ≤ ip` and hand it to `tailCheck`, or
correctly report that every start in the window exceeds `ip`. -/
theorem lookupWin_cases (t : V4Table) (ip lo hi : Nat)
    (hsorted : ∀ j, j < t.starts.length → ∀ i, i < j →
      t.starts.getD i 0 < t.starts.getD j 0)
    (hhi : hi ≤ t.starts.length) :
    (∃ idx, lo ≤ idx ∧ idx < hi ∧ t.starts.getD idx 0 ≤ ip ∧
      (∀ k, idx < k → k < hi → ip < t.starts.getD k 0) ∧
      t.lookupWin ip lo hi = t.tailCheck ip idx) ∨
    ((∀ k, lo ≤ k → k < hi → ip < t.starts.getD k 0) ∧
      t.lookupWin ip lo hi = none) := by
  unfold V4Table.lookupWin
  by_cases hwe : hi ≤ lo
  · right
    rw [if_pos hwe]
    exact ⟨fun k h1 h2 => by omega, rfl⟩
  · rw [if_neg hwe]
    push_neg at hwe
    by_cases hsmall : hi - lo ≤ 32
    · rw [if_pos hsmall]
      cases hscan : scanDown t.starts ip lo (hi - 1) with
      | none =>
        right
        exact ⟨fun k h1 h2 =>
          (scanDown_spec t.starts ip lo (hi - 1)).2 hscan k h1 (by omega), by simp [hscan]⟩
      | some r =>
        left
        obtain ⟨a, b, c, d⟩ := (scanDown_spec t.starts ip lo (hi - 1)).1 r hscan
        exact ⟨r, a, by omega, c, fun k h1 h2 => d k h1 (by omega), by simp [hscan]⟩
    · rw [if_neg hsmall]
      obtain ⟨a, b, c, d⟩ :=
        bsearchGo_spec t.starts ip hsorted (hi - lo) lo hi (le_refl _) hhi (by omega)
      rw [show bsearch t.starts ip lo hi = bsearchGo t.starts ip (hi - lo) lo hi from rfl]
      by_cases hr : bsearchGo t.starts ip (hi - lo) lo hi ≤ lo
      · right
        rw [if_pos hr]
        exact ⟨fun k h1 h2 => c k (by omega) h2, rfl⟩
      · left
        rw [if_neg hr]
        push_neg at hr
        exact ⟨bsearchGo t.starts ip (hi - lo) lo hi - 1, by omega, by omega, d (by omega),
          fun k h1 h2 => c k (by omega) h2, rfl⟩

/-- C1 (amended: pairwise disjoint, without the same-label overlap
allowance, and with every interval start below `0xFFFF0000` — the
bucket key `uint32(p) << 16` wraps to 0 at `p = 65536`, so intervals
starting in the top /16 block are unreachable): for such a table sorted
strictly ascending by start, and any u32 `ip`, the lookup — bucket
narrowing plus either the linear-scan path or the binary-search path —
returns `l` iff some interval `i` contains `ip` with `labels[i] = l`,
where on a dense table `l = LABEL_NONE` is reported as a miss; in every
other case it misses. -/
theorem c1_lookup_correct (t : V4Table) (ip : Nat)
    (hes : t.ends.length = t.starts.length) (hls : t.labels.length = t.starts.length)
    (hip : ip < 2 ^ 32)
    (htop : ∀ j, j < t.starts.length → t.starts.getD j 0 < 65535 * 65536)
    (hse : ∀ i, i < t.starts.length → t.starts.getD i 0 ≤ t.ends.getD i 0)
    (hsorted : ∀ j, j < t.starts.length → ∀ i, i < j →
      t.starts.getD i 0 < t.starts.getD j 0)
    (hdisj : ∀ j, j < t.starts.length → ∀ i, i < j →
      t.ends.getD i 0 < t.starts.getD j 0 ∨ t.ends.getD j 0 < t.starts.getD i 0) :
    ∀ l, t.lookup ip = some l ↔
      ∃ i, i < t.starts.length ∧ t.starts.getD i 0 ≤ ip ∧ ip ≤ t.ends.getD i 0 ∧
        t.labels.getD i 0 = l ∧ (t.detectDense = true → l ≠ labelNone) := by
  intro l
  unfold V4Table.lookup
  by_cases hn : t.starts.length = 0
  · rw [if_pos hn]
    constructor
    · intro h; cases h
    · rintro ⟨i, hi, -⟩; omega
  · rw [if_neg hn]
    simp only [V4Table.bucketLo16, V4Table.bucketHi16]
    have hwin := bucket_window_complete t hsorted htop
    have hdm : 65536 * (ip / 65536) + ip % 65536 = ip := Nat.div_add_mod ip 65536
    have hmod : ip % 65536 < 65536 := Nat.mod_lt _ (by omega)
    have hcur_le : bucketCursor t.starts (ip / 65536 + 1) ≤ t.starts.length := by
      rcases Nat.lt_or_ge (ip / 65536 + 1) 65536 with h | h
      · exact (bucketCursor_spec t.starts (ip / 65536 + 1) (by omega)).1
      · have hq : ip / 65536 + 1 = 65536 := by omega
        rw [hq, bucketCursor_freeze]
        exact (bucketCursor_spec t.starts 65535 (le_refl _)).1
    set lo := bucketCursor t.ends (ip / 65536) with hlo_def
    set hi := min (bucketCursor t.starts (ip / 65536 + 1)) t.starts.length with hhi_def
    have hhi : hi ≤ t.starts.length := min_le_right _ _
    have hhieq : hi = bucketCursor t.starts (ip / 65536 + 1) := min_eq_left hcur_le
    rcases lookupWin_cases t ip lo hi hsorted hhi with
      ⟨idx, h1, h2, h3, h4, heq⟩ | ⟨hall, heq⟩
    · rw [heq]
      have hplt : ip < (ip / 65536 + 1) * 65536 := by omega
      have habove : ∀ k, idx < k → k < t.starts.length → ip < t.starts.getD k 0 := by
        intro k hk hkn
        by_cases hkh : k < hi
        · exact h4 k hk hkh
        · push_neg at hkh
          rcases Nat.lt_or_ge (ip / 65536 + 1) 65536 with hq | hq
          · have hc_lt : bucketCursor t.starts (ip / 65536 + 1) < t.starts.length := by
              omega
            have hcs := (bucketCursor_spec t.starts (ip / 65536 + 1) (by omega)).2.2 hc_lt
            rcases Nat.eq_or_lt_of_le (hhieq ▸ hkh :
                bucketCursor t.starts (ip / 65536 + 1) ≤ k) with he | hlt
            · rw [← he]; omega
            · have := hsorted k hkn (bucketCursor t.starts (ip / 65536 + 1)) hlt
              omega
          · have hq65536 : ip / 65536 + 1 = 65536 := by omega
            have hfull := bucketCursor_starts_full t htop
            rw [hhieq, hq65536, bucketCursor_freeze, hfull] at hkh
            omega
      exact tailCheck_iff t ip idx hip hse hsorted hdisj (by omega) h3 habove l
    · rw [heq]
      constructor
      · intro h; cases h
      · rintro ⟨i, hi2, hsi, hei, -, -⟩
        obtain ⟨hwl, hwh⟩ := hwin ip hip i hi2 hsi hei
        have hiwin : i < hi := lt_min hwh hi2
        exact absurd hsi (not_le_of_lt (hall i hwl hiwin))

/-- C1 counterexample to the claim as stated, in two parts.  Part 1:
the table `{[0,100] ↦ 5, [10,20] ↦ 5}` is sorted strictly ascending by
start and its two intervals overlap with the *same* label — allowed by
the claim's "pairwise disjoint (or same-label)" hypothesis.  Interval 0
contains address 50 with label 5 and the table is not dense, so the
claim says the lookup returns 5; the code returns a miss (the scan
picks index 1, whose end 20 is below 50, and never revisits index 0).
Part 2: on `{[0xFFFF0000, 0xFFFFFFFF] ↦ 7}` — sorted, trivially
disjoint — the address `0xFFFF0001` lies in the single interval, but
the wrapped bucket key freezes `bucket_hi[65535]` at 0 and the lookup
misses; intervals starting in the top /16 block are unreachable. -/
theorem c1_counterexample :
    (((V4Table.mk [0, 10] [100, 20] [5, 5]).starts.getD 0 0 <
        (V4Table.mk [0, 10] [100, 20] [5, 5]).starts.getD 1 0) ∧
      ((V4Table.mk [0, 10] [100, 20] [5, 5]).labels.getD 0 0 =
        (V4Table.mk [0, 10] [100, 20] [5, 5]).labels.getD 1 0) ∧
      (∀ i, i < 2 → (V4Table.mk [0, 10] [100, 20] [5, 5]).starts.getD i 0 ≤
        (V4Table.mk [0, 10] [100, 20] [5, 5]).ends.getD i 0) ∧
      ((V4Table.mk [0, 10] [100, 20] [5, 5]).starts.getD 0 0 ≤ 50 ∧
        50 ≤ (V4Table.mk [0, 10] [100, 20] [5, 5]).ends.getD 0 0 ∧
        (V4Table.mk [0, 10] [100, 20] [5, 5]).labels.getD 0 0 = 5) ∧
      (V4Table.mk [0, 10] [100, 20] [5, 5]).detectDense = false ∧
      (V4Table.mk [0, 10] [100, 20] [5, 5]).lookup 50 = none) ∧
    (((V4Table.mk [4294901760] [4294967295] [7]).starts.getD 0 0 ≤ 4294901761 ∧
        4294901761 ≤ (V4Table.mk [4294901760] [4294967295] [7]).ends.getD 0 0 ∧
        (V4Table.mk [4294901760] [4294967295] [7]).labels.getD 0 0 = 7 ∧
        (7 : Nat) ≠ labelNone) ∧
      (V4Table.mk [4294901760] [4294967295] [7]).lookup 4294901761 = none) := by
  refine ⟨by decide, by decide, ?_⟩
  unfold V4Table.lookup
  rw [if_neg (by decide : ¬ (V4Table.mk [4294901760] [4294967295] [7]).starts.length = 0)]
  rw [show min ((V4Table.mk [4294901760] [4294967295] [7]).bucketHi16 (4294901761 / 65536))
      (V4Table.mk [4294901760] [4294967295] [7]).starts.length = 0 by
    rw [bucketHi16_top_zero]
    decide]
  unfold V4Table.lookupWin
  rw [if_pos (Nat.zero_le _)]

/-- Witness for C1's amended theorem on a sorted disjoint table whose
starts lie below the top /16 block: the lookup of 15 hits interval
`[10, 20]` with label 9, matching the characterization. -/
theorem c1_lookup_correct_witness :
    (V4Table.mk [0, 10] [5, 20] [7, 9]).lookup 15 = some 9 ∧
    (∀ l, (V4Table.mk [0, 10] [5, 20] [7, 9]).lookup 15 = some l ↔
      ∃ i, i < (V4Table.mk [0, 10] [5, 20] [7, 9]).starts.length ∧
        (V4Table.mk [0, 10] [5, 20] [7, 9]).starts.getD i 0 ≤ 15 ∧
        15 ≤ (V4Table.mk [0, 10] [5, 20] [7, 9]).ends.getD i 0 ∧
        (V4Table.mk [0, 10] [5, 20] [7, 9]).labels.getD i 0 = l ∧
        ((V4Table.mk [0, 10] [5, 20] [7, 9]).detectDense = true → l ≠ labelNone)) :=
  ⟨by decide,
    c1_lookup_correct (V4Table.mk [0, 10] [5, 20] [7, 9]) 15 (by decide) (by decide)
      (by decide)
      (by intro j hj; have h2 : j < 2 := hj; interval_cases j <;> decide)
      (by intro i hi; have h2 : i < 2 := hi; interval_cases i <;> decide)
      (by
        intro j hj i hi
        have h2 : j < 2 := hj
        have h1 : j = 1 := by omega
        have h0 : i = 0 := by omega
        subst h1; subst h0; decide)
      (by
        intro j hj i hi
        have h2 : j < 2 := hj
        have h1 : j = 1 := by omega
        have h0 : i = 0 := by omega
        subst h1; subst h0; decide)⟩

theorem land_two_mul (x y : Nat) : (2 * x) &&& (2 * y) = 2 * (x &&& y) := by
  apply Nat.eq_of_testBit_eq
  intro i
  cases i with
  | zero =>
    have h1 : (2 * x) % 2 = 0 := by omega
    have h2 : (2 * (x &&& y)) % 2 = 0 := by omega
    simp [Nat.testBit_land, Nat.testBit_zero, h1, h2]
  | succ i =>
    have h1 : 2 * x / 2 = x := by omega
    have h2 : 2 * y / 2 = y := by omega
    have h3 : 2 * (x &&& y) / 2 = x &&& y := by omega
    rw [Nat.testBit_land, Nat.testBit_succ, Nat.testBit_succ, Nat.testBit_succ,
      h1, h2, h3, Nat.testBit_land]

theorem land_odd_odd (x y : Nat) : (2 * x + 1) &&& (2 * y + 1) = 2 * (x &&& y) + 1 := by
  apply Nat.eq_of_testBit_eq
  intro i
  cases i with
  | zero =>
    have h1 : (2 * x + 1) % 2 = 1 := by omega
    have h2 : (2 * y + 1) % 2 = 1 := by omega
    have h3 : (2 * (x &&& y) + 1) % 2 = 1 := by omega
    simp [Nat.testBit_land, Nat.testBit_zero, h1, h2, h3]
  | succ i =>
    have h1 : (2 * x + 1) / 2 = x := by omega
    have h2 : (2 * y + 1) / 2 = y := by omega
    have h3 : (2 * (x &&& y) + 1) / 2 = x &&& y := by omega
    rw [Nat.testBit_land, Nat.testBit_succ, Nat.testBit_succ, Nat.testBit_succ,
      h1, h2, h3, Nat.testBit_land]

theorem land_even_odd (x y : Nat) : (2 * x) &&& (2 * y + 1) = 2 * (x &&& y) := by
  apply Nat.eq_of_testBit_eq
  intro i
  cases i with
  | zero =>
    have h1 : (2 * x) % 2 = 0 := by omega
    have h2 : (2 * (x &&& y)) % 2 = 0 := by omega
    simp [Nat.testBit_land, Nat.testBit_zero, h1, h2]
  | succ i =>
    have h1 : 2 * x / 2 = x := by omega
    have h2 : (2 * y + 1) / 2 = y := by omega
    have h3 : 2 * (x &&& y) / 2 = x &&& y := by omega
    rw [Nat.testBit_land, Nat.testBit_succ, Nat.testBit_succ, Nat.testBit_succ,
      h1, h2, h3, Nat.testBit_land]

theorem land_odd_even (x y : Nat) : (2 * x + 1) &&& (2 * y) = 2 * (x &&& y) := by
  apply Nat.eq_of_testBit_eq
  intro i
  cases i with
  | zero =>
    have h1 : (2 * y) % 2 = 0 := by omega
    have h2 : (2 * (x &&& y)) % 2 = 0 := by omega
    simp [Nat.testBit_land, Nat.testBit_zero, h1, h2]
  | succ i =>
    have h1 : (2 * x + 1) / 2 = x := by omega
    have h2 : 2 * y / 2 = y := by omega
    have h3 : 2 * (x &&& y) / 2 = x &&& y := by omega
    rw [Nat.testBit_land, Nat.testBit_succ, Nat.testBit_succ, Nat.testBit_succ,
      h1, h2, h3, Nat.testBit_land]

/-- Bitwise complements (summing to an all-ones value) share no bits. -/
theorem land_eq_zero_of_add_allones :
    ∀ m x y, x + y = 2 ^ m - 1 → x &&& y = 0 := by
  intro m
  induction m with
  | zero =>
    intro x y h
    have hx : x = 0 := by omega
    have hy : y = 0 := by omega
    subst hx; subst hy
    rfl
  | succ m ih =>
    intro x y h
    have hpow : (2 : Nat) ^ (m + 1) = 2 * 2 ^ m := by ring
    have hpos : 1 ≤ (2 : Nat) ^ m := Nat.one_le_two_pow
    rcases Nat.even_or_odd x with hx | hx
    · obtain ⟨a, ha⟩ := hx
      have hxa : x = 2 * a := by omega
      have hy : y = 2 * (2 ^ m - 1 - a) + 1 := by omega
      rw [hxa, hy, land_even_odd, ih a (2 ^ m - 1 - a) (by omega)]
    · obtain ⟨a, ha⟩ := hx
      have hy : y = 2 * (2 ^ m - 1 - a) := by omega
      rw [ha, hy, land_odd_even, ih a (2 ^ m - 1 - a) (by omega)]

/-- `a & -a` over `k`-bit two's complement is the lowest set bit of `a`. -/
theorem land_two_pow_sub :
    ∀ k a, 0 < a → a < 2 ^ k →
      ∃ t, a &&& (2 ^ k - a) = 2 ^ t ∧ 2 ^ t ∣ a ∧ t < k := by
  intro k
  induction k with
  | zero => intro a ha hak; omega
  | succ k ih =>
    intro a ha hak
    have hpow : (2 : Nat) ^ (k + 1) = 2 * 2 ^ k := by ring
    rcases Nat.even_or_odd a with he | ho
    · obtain ⟨b, hb⟩ := he
      have hab : a = 2 * b := by omega
      have hcompl : 2 ^ (k + 1) - a = 2 * (2 ^ k - b) := by omega
      obtain ⟨t, ht, htd, htk⟩ := ih b (by omega) (by omega)
      refine ⟨t + 1, ?_, ?_, by omega⟩
      · rw [hcompl, hab, land_two_mul, ht]
        ring
      · obtain ⟨c, hc⟩ := htd
        exact ⟨c, by rw [hab, hc]; ring⟩
    · obtain ⟨b, hb⟩ := ho
      have hpos : 1 ≤ (2 : Nat) ^ k := Nat.one_le_two_pow
      have hcompl : 2 ^ (k + 1) - a = 2 * (2 ^ k - 1 - b) + 1 := by omega
      refine ⟨0, ?_, one_dvd a, by omega⟩
      rw [hcompl, hb, land_odd_odd,
        land_eq_zero_of_add_allones k b (2 ^ k - 1 - b) (by omega)]
      norm_num

/-- `tz32` agrees with the exponent on 32-bit powers of two. -/
theorem tz32_two_pow (t : Nat) (ht : t < 32) : tz32 (2 ^ t) = t := by
  interval_cases t <;> decide

/-- `maxSize` of a `rangeToCIDRs` iteration is a power of two dividing
`cur` with exponent below 32. -/
theorem maxSizeOf_spec (cur : Nat) (hc : cur < 2 ^ 32) :
    ∃ t, t < 32 ∧ maxSizeOf cur = 2 ^ t ∧ 2 ^ t ∣ cur := by
  unfold maxSizeOf
  by_cases h0 : cur &&& (2 ^ 32 - cur) = 0
  · rw [if_pos h0]
    rcases Nat.eq_zero_or_pos cur with hz | hp
    · exact ⟨31, by omega, rfl, hz ▸ Dvd.intro 0 rfl⟩
    · obtain ⟨t, ht, -, -⟩ := land_two_pow_sub 32 cur hp hc
      rw [h0] at ht
      exact absurd ht.symm (Nat.pos_iff_ne_zero.mp (Nat.pos_pow_of_pos t (by omega)))
  · rw [if_neg h0]
    rcases Nat.eq_zero_or_pos cur with hz | hp
    · subst hz
      simp at h0
    · obtain ⟨t, ht, htd, htk⟩ := land_two_pow_sub 32 cur hp hc
      exact ⟨t, htk, ht, htd⟩

/-- The widening loop only increases `maxLen`, never beyond 32, and when
it stops below 32 the block fits `remaining`. -/
theorem widenGo_spec (remaining : Nat) :
    ∀ fuel ml, 32 - ml ≤ fuel →
      ml ≤ widenGo remaining fuel ml ∧ widenGo remaining fuel ml ≤ max ml 32 ∧
      (widenGo remaining fuel ml < 32 →
        2 ^ (32 - widenGo remaining fuel ml) ≤ remaining) := by
  intro fuel
  induction fuel with
  | zero =>
    intro ml hf
    simp only [widenGo]
    exact ⟨le_refl ml, le_max_left ml 32, fun h => by omega⟩
  | succ fuel ih =>
    intro ml hf
    simp only [widenGo]
    by_cases hml : ml < 32
    · rw [if_pos hml]
      by_cases hfit : 2 ^ (32 - ml) ≤ remaining
      · rw [if_pos hfit]
        exact ⟨le_refl ml, le_max_left ml 32, fun _ => hfit⟩
      · rw [if_neg hfit]
        obtain ⟨a, b, c⟩ := ih (ml + 1) (by omega)
        exact ⟨by omega, by omega, c⟩
    · rw [if_neg hml]
      exact ⟨le_refl ml, le_max_left ml 32, fun h => by omega⟩

/-- Per-iteration facts for `rangeToCIDRs`: the step is a positive
power of two, divides `cur` (canonical alignment), and never overshoots
the remaining addresses; `maxLen` stays in `[1, 32]`. -/
theorem stepOf_spec (e cur : Nat) (hce : cur ≤ e) (he : e < 2 ^ 32) :
    1 ≤ stepOf e cur ∧ stepOf e cur ≤ e + 1 - cur ∧
      cur % stepOf e cur = 0 ∧ 1 ≤ maxLenOf e cur ∧ maxLenOf e cur ≤ 32 := by
  obtain ⟨t, htlt, htval, htdvd⟩ := maxSizeOf_spec cur (by omega)
  have hml0 : maxLen0Of cur = 32 - t := by
    unfold maxLen0Of
    rw [htval, tz32_two_pow t htlt]
  have hml0b : 1 ≤ maxLen0Of cur ∧ maxLen0Of cur ≤ 32 := by omega
  obtain ⟨ha, hb, hc⟩ := widenGo_spec (remainingOf e cur) (32 - maxLen0Of cur)
    (maxLen0Of cur) (le_refl _)
  have hw : widenGo (remainingOf e cur) (32 - maxLen0Of cur) (maxLen0Of cur) =
      maxLenOf e cur := rfl
  rw [hw] at ha hb hc
  rw [max_eq_right (by omega : maxLen0Of cur ≤ 32)] at hb
  have hstep_dvd : stepOf e cur ∣ 2 ^ t := by
    unfold stepOf
    exact pow_dvd_pow 2 (by omega)
  have hstep_pos : 1 ≤ stepOf e cur := Nat.one_le_two_pow
  refine ⟨hstep_pos, ?_, ?_, by omega, hb⟩
  · -- step fits the true remaining count
    have hstep_eq : stepOf e cur = 2 ^ (32 - maxLenOf e cur) := rfl
    have hr1 : e - cur + 1 = e + 1 - cur := by omega
    by_cases hml32 : maxLenOf e cur < 32
    · have hfit := hc hml32
      by_cases hwrap : e + 1 - cur < 2 ^ 32
      · have hrem : remainingOf e cur = e + 1 - cur := by
          unfold remainingOf
          rw [hr1]
          exact Nat.mod_eq_of_lt hwrap
        omega
      · have h232 : e + 1 - cur = 2 ^ 32 := by omega
        have hrem : remainingOf e cur = 0 := by
          unfold remainingOf
          rw [hr1, h232]
          exact Nat.mod_self _
        have hpos2 : 1 ≤ 2 ^ (32 - maxLenOf e cur) := Nat.one_le_two_pow
        omega
    · have hml32e : maxLenOf e cur = 32 := by omega
      have hs1 : stepOf e cur = 1 := by
        rw [hstep_eq, hml32e]
        norm_num
      omega
  · obtain ⟨c, hcv⟩ := dvd_trans hstep_dvd htdvd
    nth_rewrite 1 [hcv]
    exact Nat.mul_mod_right _ _

theorem rangeLoopGo_nil (e : Nat) : ∀ fuel cur, e < cur → rangeLoopGo e fuel cur = [] := by
  intro fuel cur h
  cases fuel with
  | zero => rfl
  | succ f =>
    simp only [rangeLoopGo]
    rw [if_neg (by omega)]

/-- The `rangeToCIDRs` loop emits canonical in-range blocks, in
ascending contiguous order, covering `[cur, e]` exactly. -/
theorem rangeLoopGo_spec (e : Nat) (he : e < 2 ^ 32) :
    ∀ fuel cur, e + 1 - cur ≤ fuel → cur ≤ e →
      (∀ pr ∈ rangeLoopGo e fuel cur, pr.2 ≤ 32 ∧ pr.1 % 2 ^ (32 - pr.2) = 0 ∧
        cur ≤ pr.1 ∧ pr.1 + 2 ^ (32 - pr.2) - 1 ≤ e) ∧
      List.Chain' (fun p q : Nat × Nat => p.1 + 2 ^ (32 - p.2) ≤ q.1)
        (rangeLoopGo e fuel cur) ∧
      (∀ x, (cur ≤ x ∧ x ≤ e) ↔ ∃ pr ∈ rangeLoopGo e fuel cur,
        pr.1 ≤ x ∧ x < pr.1 + 2 ^ (32 - pr.2)) := by
  intro fuel
  induction fuel with
  | zero => intro cur hf hce; omega
  | succ fuel ih =>
    intro cur hf hce
    obtain ⟨hs1, hs2, hs3, hml1, hml2⟩ := stepOf_spec e cur hce he
    have hstep_eq : stepOf e cur = 2 ^ (32 - maxLenOf e cur) := rfl
    have hs3' : cur % 2 ^ (32 - maxLenOf e cur) = 0 := by rw [← hstep_eq]; exact hs3
    simp only [rangeLoopGo]
    rw [if_pos hce]
    by_cases hwrap : (cur + stepOf e cur) % 2 ^ 32 ≤ cur
    · rw [if_pos hwrap]
      have hcs : cur + stepOf e cur = 2 ^ 32 := by
        rcases Nat.lt_or_ge (cur + stepOf e cur) (2 ^ 32) with hlt | hge
        · rw [Nat.mod_eq_of_lt hlt] at hwrap; omega
        · omega
      refine ⟨?_, List.chain'_singleton _, ?_⟩
      · intro pr hpr
        rw [List.mem_singleton] at hpr
        subst hpr
        exact ⟨hml2, hs3', le_refl _, by rw [← hstep_eq]; omega⟩
      · intro x
        constructor
        · rintro ⟨hx1, hx2⟩
          exact ⟨(cur, maxLenOf e cur), List.mem_singleton_self _, hx1,
            by rw [← hstep_eq]; omega⟩
        · rintro ⟨pr, hpr, h1, h2⟩
          rw [List.mem_singleton] at hpr
          subst hpr
          rw [← hstep_eq] at h2
          exact ⟨h1, by omega⟩
    · rw [if_neg hwrap]
      push_neg at hwrap
      have hnowrap : cur + stepOf e cur < 2 ^ 32 := by
        rcases Nat.lt_or_ge (cur + stepOf e cur) (2 ^ 32) with hlt | hge
        · exact hlt
        · have h32 : cur + stepOf e cur = 2 ^ 32 := by omega
          rw [h32, Nat.mod_self] at hwrap
          omega
      have hnext : (cur + stepOf e cur) % 2 ^ 32 = cur + stepOf e cur :=
        Nat.mod_eq_of_lt hnowrap
      rw [hnext]
      by_cases hend : cur + stepOf e cur ≤ e
      · obtain ⟨ih1, ih2, ih3⟩ := ih (cur + stepOf e cur) (by omega) hend
        refine ⟨?_, ?_, ?_⟩
        · intro pr hpr
          rcases List.mem_cons.mp hpr with he2 | htail
          · subst he2
            exact ⟨hml2, hs3', le_refl _, by rw [← hstep_eq]; omega⟩
          · obtain ⟨a2, b2, c2, d2⟩ := ih1 pr htail
            exact ⟨a2, b2, by omega, d2⟩
        · rw [List.chain'_cons']
          refine ⟨?_, ih2⟩
          intro q hq
          have hqmem : q ∈ rangeLoopGo e fuel (cur + stepOf e cur) :=
            List.mem_of_mem_head? hq
          have hnle := (ih1 q hqmem).2.2.1
          show cur + 2 ^ (32 - maxLenOf e cur) ≤ q.1
          rw [← hstep_eq]
          exact hnle
        · intro x
          constructor
          · rintro ⟨hx1, hx2⟩
            by_cases hxblock : x < cur + stepOf e cur
            · exact ⟨(cur, maxLenOf e cur), List.mem_cons_self _ _, hx1,
                by rw [← hstep_eq]; exact hxblock⟩
            · push_neg at hxblock
              obtain ⟨pr, hpr, h1, h2⟩ := (ih3 x).mp ⟨hxblock, hx2⟩
              exact ⟨pr, List.mem_cons_of_mem _ hpr, h1, h2⟩
          · rintro ⟨pr, hpr, h1, h2⟩
            rcases List.mem_cons.mp hpr with he2 | htail
            · subst he2
              rw [← hstep_eq] at h2
              exact ⟨h1, by omega⟩
            · have := (ih3 x).mpr ⟨pr, htail, h1, h2⟩
              exact ⟨by omega, this.2⟩
      · have hrest : rangeLoopGo e fuel (cur + stepOf e cur) = [] :=
          rangeLoopGo_nil e fuel _ (by omega)
        rw [hrest]
        have hce2 : cur + stepOf e cur = e + 1 := by omega
        refine ⟨?_, List.chain'_singleton _, ?_⟩
        · intro pr hpr
          rw [List.mem_singleton] at hpr
          subst hpr
          exact ⟨hml2, hs3', le_refl _, by rw [← hstep_eq]; omega⟩
        · intro x
          constructor
          · rintro ⟨hx1, hx2⟩
            exact ⟨(cur, maxLenOf e cur), List.mem_singleton_self _, hx1,
              by rw [← hstep_eq]; omega⟩
          · rintro ⟨pr, hpr, h1, h2⟩
            rw [List.mem_singleton] at hpr
            subst hpr
            rw [← hstep_eq] at h2
            exact ⟨h1, by omega⟩

/-- C8: for every `a ≤ b < 2^32`, `rangeToCIDRs a b` returns canonical
CIDR blocks (prefix length at most 32, base aligned to the block size),
in ascending order and pairwise non-overlapping (each block ends before
the next begins), whose union of covered addresses is exactly `{a..b}`. -/
theorem c8_rangeToCIDRs (a b : Nat) (hab : a ≤ b) (hb : b < 2 ^ 32) :
    (∀ pr ∈ rangeToCIDRs a b, pr.2 ≤ 32 ∧ pr.1 % 2 ^ (32 - pr.2) = 0 ∧
      a ≤ pr.1 ∧ pr.1 + 2 ^ (32 - pr.2) - 1 ≤ b) ∧
    List.Chain' (fun p q : Nat × Nat => p.1 + 2 ^ (32 - p.2) ≤ q.1)
      (rangeToCIDRs a b) ∧
    (∀ x, (a ≤ x ∧ x ≤ b) ↔
      ∃ pr ∈ rangeToCIDRs a b, pr.1 ≤ x ∧ x < pr.1 + 2 ^ (32 - pr.2)) := by
  unfold rangeToCIDRs rangeLoop
  rw [if_neg (by omega : ¬b < a)]
  exact rangeLoopGo_spec b hb (b + 1 - a) a (le_refl _) hab

/-- Witness for C8 on the range `[3, 9]`, whose decomposition is
`3/32, 4/30, 8/31`. -/
theorem c8_rangeToCIDRs_witness :
    (3 ≤ 9 ∧ rangeToCIDRs 3 9 = [(3, 32), (4, 30), (8, 31)]) ∧
    (∀ x, (3 ≤ x ∧ x ≤ 9) ↔
      ∃ pr ∈ rangeToCIDRs 3 9, pr.1 ≤ x ∧ x < pr.1 + 2 ^ (32 - pr.2)) :=
  ⟨⟨by omega, by decide⟩, (c8_rangeToCIDRs 3 9 (by omega) (by norm_num)).2.2⟩

/-- C3 (code bug): `readCIDRFileAsRanges` merges a range into the
previous one when `cur.start <= last.end+1`, but `last.end+1` is
computed in uint32 and wraps to 0 when `last.end = 0xFFFFFFFF`.  A
category file holding `128.0.0.0/1` followed by `128.0.0.0/2` parses to
the ranges `[0x80000000, 0xFFFFFFFF]` and `[0x80000000, 0xBFFFFFFF]`;
sorting by start keeps that order, the wrapped merge test
`0x80000000 <= 0` fails, both ranges are emitted, the resulting
same-label overlap passes `validateNoOverlapDifferentLabel`, and the
build succeeds with starts `[0x80000000, 0x80000000]` — not strictly
increasing, violating the claimed invariant that a successful build
emits strictly ascending starts. -/
theorem c3_merge_wrap_bug :
    buildCategory [SourceFile.mk 1 [ipRange.mk 2147483648 4294967295,
        ipRange.mk 2147483648 3221225471]] =
      some ([2147483648, 2147483648], [4294967295, 3221225471], [1, 1]) ∧
    ¬ ([(2147483648 : Nat), 2147483648].getD 0 0 <
        [(2147483648 : Nat), 2147483648].getD 1 0) := by decide

/-- C5 (code bug): open/parse is not total on arbitrary bytes.  The
72-byte file `c5Bytes` passes the header, strings and section-span
bounds checks, but its section is shorter than the 88 bytes the 22
field reads need, and `sec[4:8]` faults (a Go slice-bounds panic)
instead of failing with `ErrInvalidDB`. -/
theorem c5_parse_fault_on_short_section : parseV4 c5Bytes = POut.fault := by decide

theorem mapFind_mapInsert (m : List (List Nat × Nat)) (k k' : List Nat) (v : Nat) :
    mapFind (mapInsert m k v) k' = if k = k' then some v else mapFind m k' := by
  induction m with
  | nil => simp [mapInsert, mapFind]
  | cons p rest ih =>
    obtain ⟨k0, v0⟩ := p
    simp only [mapInsert]
    by_cases h0 : k0 = k
    · subst h0
      rw [if_pos rfl]
      by_cases h : k0 = k' <;> simp [mapFind, h]
    · rw [if_neg h0]
      simp only [mapFind, ih]
      by_cases h : k0 = k' <;> by_cases h2 : k = k' <;> simp [h, h2]
      exact absurd (h.trans h2.symm) h0

/-- The provider-map loop only changes bindings for keys of the labels
it walks over. -/
theorem providerMapLoop_preserves (data strt ende : List Nat) :
    ∀ (pls : List providerLabel) (i0 : Nat) (acc m : List (List Nat × Nat)),
      providerMapLoop data strt ende i0 acc pls = .ok m →
      ∀ key, (∀ pl ∈ pls, strGet data strt ende pl.Key ≠ key) →
        mapFind m key = mapFind acc key := by
  intro pls
  induction pls with
  | nil =>
    intro i0 acc m h key _
    simp only [providerMapLoop] at h
    cases h
    rfl
  | cons pl rest ih =>
    intro i0 acc m h key hkeys
    simp only [providerMapLoop] at h
    by_cases hk : strGet data strt ende pl.Key = []
    · rw [if_pos hk] at h; cases h
    · rw [if_neg hk] at h
      have := ih (i0 + 1) (mapInsert acc (strGet data strt ende pl.Key) i0) m h key
        (fun q hq => hkeys q (List.mem_cons_of_mem _ hq))
      rw [this, mapFind_mapInsert, if_neg (hkeys pl (List.mem_cons_self _ _))]

/-- The provider-map loop fails whenever some walked label has an empty
key string. -/
theorem providerMapLoop_empty (data strt ende : List Nat) :
    ∀ (pls : List providerLabel) (i0 : Nat) (acc : List (List Nat × Nat)),
      (∃ i, i < pls.length ∧
        strGet data strt ende (pls.getD i (providerLabel.mk 0 0 0)).Key = []) →
      providerMapLoop data strt ende i0 acc pls = .invalid := by
  intro pls
  induction pls with
  | nil => rintro i0 acc ⟨i, hi, -⟩; simp at hi
  | cons pl rest ih =>
    rintro i0 acc ⟨i, hi, hempty⟩
    simp only [providerMapLoop]
    by_cases hkey : strGet data strt ende pl.Key = []
    · rw [if_pos hkey]
    · rw [if_neg hkey]
      cases i with
      | zero => simp only [List.getD_cons_zero] at hempty; exact absurd hempty hkey
      | succ i2 =>
        exact ih (i0 + 1) _ ⟨i2, by simpa using hi, by simpa using hempty⟩

/-- On success, the provider map binds the key of label `i` to the last
index carrying that key; in particular label `i` round-trips whenever no
later label shares its key. -/
theorem providerMapLoop_ok (data strt ende : List Nat) :
    ∀ (pls : List providerLabel) (i0 : Nat) (acc m : List (List Nat × Nat)),
      providerMapLoop data strt ende i0 acc pls = .ok m →
      ∀ k, k < pls.length →
        (∀ j, k < j → j < pls.length →
          strGet data strt ende (pls.getD j (providerLabel.mk 0 0 0)).Key ≠
            strGet data strt ende (pls.getD k (providerLabel.mk 0 0 0)).Key) →
        mapFind m (strGet data strt ende (pls.getD k (providerLabel.mk 0 0 0)).Key) =
          some (i0 + k) := by
  intro pls
  induction pls with
  | nil => intro i0 acc m h k hk; simp at hk
  | cons pl rest ih =>
    intro i0 acc m h k hk hdist
    simp only [providerMapLoop] at h
    by_cases hkey : strGet data strt ende pl.Key = []
    · rw [if_pos hkey] at h; cases h
    · rw [if_neg hkey] at h
      cases k with
      | zero =>
        simp only [List.getD_cons_zero]
        rw [providerMapLoop_preserves data strt ende rest (i0 + 1)
          (mapInsert acc (strGet data strt ende pl.Key) i0) m h
          (strGet data strt ende pl.Key) ?_]
        · rw [mapFind_mapInsert, if_pos rfl]
          simp
        · intro q hq he
          obtain ⟨j, hj, hjq⟩ := List.getElem_of_mem hq
          have hd := hdist (j + 1) (by omega) (by simpa using hj)
          apply hd
          simp only [List.getD_cons_succ, List.getD_cons_zero]
          rw [List.getD_eq_getElem _ _ hj, hjq]
          exact he
      | succ k2 =>
        simp only [List.getD_cons_succ]
        have hres := ih (i0 + 1) (mapInsert acc (strGet data strt ende pl.Key) i0) m h k2
          (by simpa using hk) ?_
        · rw [hres]; congr 1; omega
        · intro j hj hjr
          have := hdist (j + 1) (by omega) (by simpa using hjr)
          simpa using this

/-- C9 (amended): on every database the loop at the end of `parseV4v2`
builds, the provider reverse map binds each key to the *last* provider
label carrying it, so label `i` round-trips exactly when no later label
shares its key (hence it round-trips for all labels whenever keys are
pairwise distinct); and the loop fails with `ErrInvalidDB` whenever some
provider label has an empty key string. -/
theorem c9_provider_map (data strt ende : List Nat) (pls : List providerLabel) :
    ((∃ i, i < pls.length ∧
        strGet data strt ende (pls.getD i (providerLabel.mk 0 0 0)).Key = []) →
      providerMapLoop data strt ende 0 [] pls = .invalid) ∧
    (∀ m, providerMapLoop data strt ende 0 [] pls = .ok m →
      ∀ i, i < pls.length →
        (∀ j, i < j → j < pls.length →
          strGet data strt ende (pls.getD j (providerLabel.mk 0 0 0)).Key ≠
            strGet data strt ende (pls.getD i (providerLabel.mk 0 0 0)).Key) →
        mapFind m (strGet data strt ende (pls.getD i (providerLabel.mk 0 0 0)).Key) =
          some i) := by
  constructor
  · exact providerMapLoop_empty data strt ende pls 0 []
  · intro m hm i hi hdist
    simpa using providerMapLoop_ok data strt ende pls 0 [] m hm i hi hdist

/-- Witness for C9's amended statement: a two-label table with distinct
keys round-trips both labels. -/
theorem c9_provider_map_witness :
    (providerMapLoop [97, 98] [0, 1] [1, 2] 0 []
        [providerLabel.mk 0 0 1, providerLabel.mk 1 0 2] = .ok [([97], 0), ([98], 1)]) ∧
    mapFind [([97], 0), ([98], 1)]
      (strGet [97, 98] [0, 1] [1, 2]
        ([providerLabel.mk 0 0 1, providerLabel.mk 1 0 2].getD 0 (providerLabel.mk 0 0 0)).Key) =
      some 0 ∧
    mapFind [([97], 0), ([98], 1)]
      (strGet [97, 98] [0, 1] [1, 2]
        ([providerLabel.mk 0 0 1, providerLabel.mk 1 0 2].getD 1 (providerLabel.mk 0 0 0)).Key) =
      some 1 := by
  refine ⟨by decide, ?_, ?_⟩
  · exact (c9_provider_map [97, 98] [0, 1] [1, 2]
      [providerLabel.mk 0 0 1, providerLabel.mk 1 0 2]).2 _ (by decide) 0 (by decide)
      (by
        intro j hj hlen
        simp only [List.length_cons, List.length_nil] at hlen
        have hj1 : j = 1 := by omega
        subst hj1
        decide)
  · exact (c9_provider_map [97, 98] [0, 1] [1, 2]
      [providerLabel.mk 0 0 1, providerLabel.mk 1 0 2]).2 _ (by decide) 1 (by decide)
      (by intro j hj hlen; simp at hlen; omega)

set_option maxRecDepth 10000 in
/-- C9 counterexample to the claim as stated: `c9Bytes` opens
successfully, its provider label 0 has the non-empty key `"aa"`, yet the
reverse map sends that key to label 1, so label 0 does not round-trip. -/
theorem c9_counterexample :
    parseV4 c9Bytes =
      POut.ok (v4DB.mk [1, 0, 0, 0, 2, 0, 97, 97] [6] [8] [] []
        [providerLabel.mk 0 0 1, providerLabel.mk 0 0 1]
        (V4Table.mk [] [] []) (V4Table.mk [] [] []) (V4Table.mk [] [] [])
        (V4Table.mk [] [] []) [([97, 97], 1)]) ∧
    (v4DB.mk [1, 0, 0, 0, 2, 0, 97, 97] [6] [8] [] []
        [providerLabel.mk 0 0 1, providerLabel.mk 0 0 1]
        (V4Table.mk [] [] []) (V4Table.mk [] [] []) (V4Table.mk [] [] [])
        (V4Table.mk [] [] []) [([97, 97], 1)]).str
      ((v4DB.mk [1, 0, 0, 0, 2, 0, 97, 97] [6] [8] [] []
        [providerLabel.mk 0 0 1, providerLabel.mk 0 0 1]
        (V4Table.mk [] [] []) (V4Table.mk [] [] []) (V4Table.mk [] [] [])
        (V4Table.mk [] [] []) [([97, 97], 1)]).providerLabels.getD 0
          (providerLabel.mk 0 0 0)).Key = [97, 97] ∧
    mapFind [([97, 97], 1)] [97, 97] = some 1 := by decide

end IplistModel
